import Mathlib

set_option maxRecDepth 8000

/-!
Verification development for the Cattle Brainfuck toolkit (src/cattle).

The definitions below are a shallow embedding of the C sources:

* `cattle-instruction.c` / `cattle-instruction.h`: the instruction tree;
* `cattle-program.c`: the UTF-8 based code loader;
* `cattle-tape.c`: the chunked memory tape with bookmarks;
* `cattle-interpreter.c`: the tree-walking interpreter with I/O handlers.

Strings are modelled as lists of byte values (`List Nat`, entries intended
in 1..255, a C string's content up to its terminating NUL).  The glib
UTF-8 helpers used by the sources (`g_utf8_validate`, `g_utf8_get_char`,
`g_utf8_next_char`) are modelled by a standard UTF-8 decoder.  Machine
integers are modelled by `Int`/`Nat`; the C `%` operator on `int` is
truncated division remainder, modelled by `Int.tmod`.
-/

/-- Error codes of the loader, from the `CattleProgramError` enumeration in
`cattle-program.c`: invalid UTF-8 input, a loop closed before being opened,
and an unbalanced open/close bracket count. -/
inductive CattleProgramError where
  | badUtf8
  | unmatchedBracket
  | unbalancedBrackets
deriving DecidableEq, Repr

/-- Error codes surfaced by the interpreter (`CATTLE_ERROR_*` constants used
in `cattle-interpreter.c`).  `ioErr` is the generic I/O error synthesized
when a handler fails without populating an error; `handlerFault n` stands
for an arbitrary caller-defined error populated by a handler. -/
inductive CattleError where
  | ioErr
  | unbalancedBrackets
  | inputOutOfRange
  | badUtf8
  | handlerFault (n : Nat)
deriving DecidableEq, Repr

/-- The opcodes of `CattleInstructionValue` (cattle-instruction.h).  In C
they are the Unicode scalar values of the corresponding source characters;
`charValue` below recovers that encoding. -/
inductive CattleInstructionValue where
  | nop
  | moveLeft
  | moveRight
  | increase
  | decrease
  | loopBegin
  | loopEnd
  | read
  | print
  | debug
deriving DecidableEq, Repr

/-- Numeric value of each opcode, exactly the enumeration constants of
`CattleInstructionValue` in cattle-instruction.h (0x5F for NONE, else the
ASCII code of the opcode character). -/
def charValue : CattleInstructionValue → Nat
  | .nop => 0x5F
  | .moveLeft => 0x3C
  | .moveRight => 0x3E
  | .increase => 0x2B
  | .decrease => 0x2D
  | .loopBegin => 0x5B
  | .loopEnd => 0x5D
  | .read => 0x2C
  | .print => 0x2E
  | .debug => 0x23

/-- A `CattleInstruction`: opcode value, repetition quantity, link to the
next instruction in the chain and, for `loopBegin`, link to the first
instruction of the loop body (cattle-instruction.c). -/
inductive Instruction where
  | node (value : CattleInstructionValue) (quantity : Nat)
         (next : Option Instruction) (loop : Option Instruction)

/-- Opcode of an instruction node. -/
def instrValue : Instruction → CattleInstructionValue
  | .node v _ _ _ => v

/-- Quantity of an instruction node. -/
def instrQuantity : Instruction → Nat
  | .node _ q _ _ => q

/-- Next link of an instruction node. -/
def instrNext : Instruction → Option Instruction
  | .node _ _ n _ => n

/-- Loop link of an instruction node. -/
def instrLoop : Instruction → Option Instruction
  | .node _ _ _ l => l

/-- The instruction produced by `cattle_instruction_new`: value NONE,
quantity 1, no links. -/
def nopInstruction : Instruction := .node .nop 1 none none

/-- Is `b` a UTF-8 continuation byte (10xxxxxx)? -/
def isUtf8Cont (b : Nat) : Bool := 0x80 ≤ b && b ≤ 0xBF

/-- Decode the first UTF-8 character of a byte string, returning its scalar
value and the remaining bytes.  Returns `none` at the end of the string (an
empty list or a leading NUL, where `g_utf8_get_char` reads 0) and also on a
malformed leading sequence.  This models the `g_utf8_get_char` /
`g_utf8_next_char` pair used throughout cattle-program.c and
cattle-interpreter.c, with the well-formedness rules of `g_utf8_validate`
(shortest form only, no surrogates, at most U+10FFFF). -/
def utf8NextChar : List Nat → Option (Nat × List Nat)
  | [] => none
  | b :: bs =>
    if b = 0 then none
    else if b ≤ 0x7F then some (b, bs)
    else if 0xC2 ≤ b ∧ b ≤ 0xDF then
      let b1 := bs.getD 0 0
      if 1 ≤ bs.length ∧ isUtf8Cont b1 then
        some ((b - 0xC0) * 0x40 + (b1 - 0x80), bs.drop 1)
      else none
    else if 0xE0 ≤ b ∧ b ≤ 0xEF then
      let b1 := bs.getD 0 0
      let b2 := bs.getD 1 0
      let cp := (b - 0xE0) * 0x1000 + (b1 - 0x80) * 0x40 + (b2 - 0x80)
      if 2 ≤ bs.length ∧ isUtf8Cont b1 ∧ isUtf8Cont b2 ∧
          ¬(cp < 0x800 ∨ (0xD800 ≤ cp ∧ cp ≤ 0xDFFF)) then
        some (cp, bs.drop 2)
      else none
    else if 0xF0 ≤ b ∧ b ≤ 0xF4 then
      let b1 := bs.getD 0 0
      let b2 := bs.getD 1 0
      let b3 := bs.getD 2 0
      let cp := (b - 0xF0) * 0x40000 + (b1 - 0x80) * 0x1000 +
                (b2 - 0x80) * 0x40 + (b3 - 0x80)
      if 3 ≤ bs.length ∧ isUtf8Cont b1 ∧ isUtf8Cont b2 ∧ isUtf8Cont b3 ∧
          ¬(cp < 0x10000 ∨ 0x10FFFF < cp) then
        some (cp, bs.drop 3)
      else none
    else none

theorem utf8NextChar_length {l : List Nat} {c : Nat} {r : List Nat}
    (h : utf8NextChar l = some (c, r)) : r.length < l.length := by
  match l with
  | [] => simp [utf8NextChar] at h
  | b :: bs =>
    unfold utf8NextChar at h
    simp only at h
    split at h
    · exact Option.noConfusion h
    · split at h
      · cases h; simp
      · split at h
        · split at h
          · cases h
            simp only [List.length_drop, List.length_cons]
            omega
          · exact Option.noConfusion h
        · split at h
          · split at h
            · cases h
              simp only [List.length_drop, List.length_cons]
              omega
            · exact Option.noConfusion h
          · split at h
            · split at h
              · cases h
                simp only [List.length_drop, List.length_cons]
                omega
              · exact Option.noConfusion h
            · exact Option.noConfusion h

/-- Fuelled worker for `utf8Chars`.  Every decoded character consumes at
least one byte, so fuel `bs.length + 1` is always sufficient; the fuel
only serves to keep the recursion structural. -/
def utf8CharsF : Nat → List Nat → List Nat
  | 0, _ => []
  | fuel + 1, bs =>
    match utf8NextChar bs with
    | some (c, rest) => c :: utf8CharsF fuel rest
    | none => []

theorem utf8CharsF_fuel (f : Nat) :
    ∀ (g : Nat) (bs : List Nat), bs.length < f → bs.length < g →
      utf8CharsF f bs = utf8CharsF g bs := by
  induction f with
  | zero => intro g bs hf; omega
  | succ f ih =>
    intro g bs hf hg
    obtain ⟨g, rfl⟩ : ∃ k, g = k + 1 := ⟨g - 1, by omega⟩
    unfold utf8CharsF
    split
    · rename_i c rest h
      have hlen := utf8NextChar_length h
      rw [ih g rest (by omega) (by omega)]
    · rfl

/-- The sequence of characters (Unicode scalar values) of a byte string, as
read by repeated `g_utf8_get_char` / `g_utf8_next_char`; stops at the end of
the string, at a NUL, or at a malformed sequence. -/
def utf8Chars (bs : List Nat) : List Nat := utf8CharsF (bs.length + 1) bs

theorem utf8Chars_cons {bs rest : List Nat} {c : Nat}
    (h : utf8NextChar bs = some (c, rest)) :
    utf8Chars bs = c :: utf8Chars rest := by
  have hlen := utf8NextChar_length h
  conv_lhs => unfold utf8Chars utf8CharsF
  rw [h]
  unfold utf8Chars
  simp only [List.cons.injEq, true_and]
  exact utf8CharsF_fuel bs.length (rest.length + 1) rest (by omega) (by omega)

theorem utf8Chars_nil {bs : List Nat} (h : utf8NextChar bs = none) :
    utf8Chars bs = [] := by
  conv_lhs => unfold utf8Chars utf8CharsF
  rw [h]

/-- Fuelled worker for `utf8Valid`. -/
def utf8ValidF : Nat → List Nat → Bool
  | 0, _ => false
  | fuel + 1, bs =>
    match bs with
    | [] => true
    | b :: rest =>
      if b = 0 then true
      else
        match utf8NextChar (b :: rest) with
        | some (_, r) => utf8ValidF fuel r
        | none => false

theorem utf8ValidF_fuel (f : Nat) :
    ∀ (g : Nat) (bs : List Nat), bs.length < f → bs.length < g →
      utf8ValidF f bs = utf8ValidF g bs := by
  induction f with
  | zero => intro g bs hf; omega
  | succ f ih =>
    intro g bs hf hg
    obtain ⟨g, rfl⟩ : ∃ k, g = k + 1 := ⟨g - 1, by omega⟩
    match bs with
    | [] => rfl
    | b :: rest =>
      unfold utf8ValidF
      simp only
      by_cases hb : b = 0
      · simp [hb]
      · simp only [hb, if_false]
        cases h : utf8NextChar (b :: rest) with
        | none => rfl
        | some p =>
          obtain ⟨c0, r0⟩ := p
          have hlen := utf8NextChar_length h
          simp only [List.length_cons] at hf hg hlen
          simp only
          exact ih g r0 (by omega) (by omega)

/-- Does the byte string validate as UTF-8 up to its end (or a NUL)?  Models
`g_utf8_validate (str, -1, NULL)`. -/
def utf8Valid (bs : List Nat) : Bool := utf8ValidF (bs.length + 1) bs

theorem utf8Valid_cons {b : Nat} {bs rest : List Nat} {c : Nat}
    (hb : b ≠ 0) (h : utf8NextChar (b :: bs) = some (c, rest)) :
    utf8Valid (b :: bs) = utf8Valid rest := by
  have hlen := utf8NextChar_length h
  simp only [List.length_cons] at hlen
  conv_lhs => unfold utf8Valid utf8ValidF
  simp only [List.length_cons, hb, if_false]
  rw [h]
  unfold utf8Valid
  exact utf8ValidF_fuel (bs.length + 1) (rest.length + 1) rest (by omega) (by omega)

/-- The memory tape of cattle-tape.c.  The C implementation keeps a doubly
linked `GList` of 128-byte chunks (`CHUNK_SIZE` is 128 in this source).
Chunks are modelled with stable absolute indices: chunk `i ≥ 0` is
`rightChunks[i]`, chunk `i < 0` is `leftChunks[-i-1]`; the initial chunk has
index 0.  A `GList` node pointer in the C code corresponds to an absolute
chunk index here (chunks are never freed or reordered, so pointers are
stable exactly like these indices).  `current` is the current chunk,
`offset` the offset of the current cell inside it; `lowerLimit` and
`upperLimit` are the first/last valid offsets inside the first/last chunk;
`bookmarks` is the bookmark stack of (chunk, offset) pairs. -/
structure CattleTape where
  leftChunks : List (List Int)
  rightChunks : List (List Int)
  current : Int
  offset : Nat
  lowerLimit : Nat
  upperLimit : Nat
  bookmarks : List (Int × Nat)
deriving Repr

/-- Chunk stored at absolute index `i`, if allocated. -/
def chunkAt (t : CattleTape) (i : Int) : Option (List Int) :=
  if 0 ≤ i then t.rightChunks.get? i.toNat else t.leftChunks.get? (-i - 1).toNat

/-- Content of the current chunk (the current chunk is always allocated for
tapes built through the API). -/
def currentChunk (t : CattleTape) : List Int :=
  (chunkAt t t.current).getD (List.replicate 128 0)

/-- Replace the content of the current chunk. -/
def setCurrentChunk (t : CattleTape) (chunk : List Int) : CattleTape :=
  if 0 ≤ t.current then
    { t with rightChunks := t.rightChunks.set t.current.toNat chunk }
  else
    { t with leftChunks := t.leftChunks.set (-t.current - 1).toNat chunk }

/-- A fresh zero-filled chunk (`g_slice_alloc0 (CHUNK_SIZE)`). -/
def freshChunk : List Int := List.replicate 128 0

/-- `cattle_tape_new` / `cattle_tape_init`: a single zeroed chunk, cursor at
offset 0, both limits 0, empty bookmark stack. -/
def cattle_tape_new : CattleTape :=
  { leftChunks := []
    rightChunks := [freshChunk]
    current := 0
    offset := 0
    lowerLimit := 0
    upperLimit := 0
    bookmarks := [] }

/-- `cattle_tape_get_current_value`: the byte at the current position. -/
def cattle_tape_get_current_value (t : CattleTape) : Int :=
  (currentChunk t).getD t.offset 0

/-- `cattle_tape_set_current_value`: writes `value` at the current position.
The C function validates `(value >= 0 && value <= 127) || value == EOF`
with `g_return_if_fail`, so an out-of-range value makes the call return
without writing. -/
def cattle_tape_set_current_value (t : CattleTape) (value : Int) : CattleTape :=
  if (0 ≤ value ∧ value ≤ 127) ∨ value = -1 then
    setCurrentChunk t ((currentChunk t).set t.offset value)
  else t

/-- The cell-level arithmetic of `cattle_tape_increase_current_value_by`:
starting from cell value `current`, add `value` with the wrapping rules of
the C code.  A zero delta returns immediately; the EOF value (-1) is
special-cased by stepping to 0 (or 127) and recursing with one unit less;
otherwise the result is `(current + value) % 128` with C truncated
remainder, adjusted into `[0, 127]` when negative. -/
def wrapIncreaseF : Nat → Int → Int → Int
  | 0, current, _ => current
  | fuel + 1, current, value =>
    if value = 0 then current
    else if current = -1 then
      if 0 < value then wrapIncreaseF fuel 0 (value - 1)
      else wrapIncreaseF fuel 127 (value + 1)
    else
      let r := Int.tmod (current + value) 128
      if r < 0 then 128 + r else r

/-- Entry point with sufficient fuel: the C recursion terminates because
each EOF step moves `value` one unit towards zero. -/
def wrapIncrease (current : Int) (value : Int) : Int :=
  wrapIncreaseF (value.natAbs + 1) current value

/-- `cattle_tape_increase_current_value_by`: applies `wrapIncrease` to the
current cell; a delta of 0 leaves the tape untouched (early return in C). -/
def cattle_tape_increase_current_value_by (t : CattleTape) (value : Int) : CattleTape :=
  if value = 0 then t
  else
    setCurrentChunk t
      ((currentChunk t).set t.offset (wrapIncrease (cattle_tape_get_current_value t) value))

/-- `cattle_tape_decrease_current_value_by`: increase by the negated
amount. -/
def cattle_tape_decrease_current_value_by (t : CattleTape) (value : Int) : CattleTape :=
  cattle_tape_increase_current_value_by t (-value)

/-- `cattle_tape_increase_current_value`: increase by one. -/
def cattle_tape_increase_current_value (t : CattleTape) : CattleTape :=
  cattle_tape_increase_current_value_by t 1

/-- `cattle_tape_decrease_current_value`: decrease by one. -/
def cattle_tape_decrease_current_value (t : CattleTape) : CattleTape :=
  cattle_tape_decrease_current_value_by t 1

/-- `cattle_tape_move_left_by`.  While more steps remain than the current
offset, allocate a previous chunk if absent (setting the lower limit to
127), step into it at offset 127, and spend `offset + 1` steps; then lower
the offset by the remaining steps, updating the lower limit if the cursor
is now in the first chunk below it.  `steps` is a `gint` in C; the API is
used with non-negative amounts, modelled by `Nat`. -/
def moveLeftByF : Nat → CattleTape → Nat → CattleTape
  | 0, t, _ => t
  | fuel + 1, t, steps =>
    if t.offset < steps then
      let t1 :=
        if (chunkAt t (t.current - 1)).isNone then
          { t with leftChunks := t.leftChunks.concat freshChunk, lowerLimit := 127 }
        else t
      let t2 := { t1 with current := t1.current - 1, offset := 127 }
      moveLeftByF fuel t2 (steps - (t.offset + 1))
    else
      let t3 := { t with offset := t.offset - steps }
      if (chunkAt t3 (t3.current - 1)).isNone ∧ t3.offset < t3.lowerLimit then
        { t3 with lowerLimit := t3.offset }
      else t3

/-- Entry point with sufficient fuel: every loop iteration spends at least
one step. -/
def cattle_tape_move_left_by (t : CattleTape) (steps : Nat) : CattleTape :=
  moveLeftByF (steps + 1) t steps

/-- `cattle_tape_move_right_by`.  While `offset + steps` reaches past the
chunk, allocate a next chunk if absent (setting the upper limit to 0), step
into it at offset 0, and spend `128 - offset` steps; then raise the offset
by the remaining steps, updating the upper limit if the cursor is now in
the last chunk above it.  The `offset < 128` guard only serves Lean's
termination checker: every tape reachable through this API keeps
`offset ≤ 127`, so the guard never changes the result. -/
def moveRightByF : Nat → CattleTape → Nat → CattleTape
  | 0, t, _ => t
  | fuel + 1, t, steps =>
    if 128 ≤ t.offset + steps then
      let t1 :=
        if (chunkAt t (t.current + 1)).isNone then
          { t with rightChunks := t.rightChunks.concat freshChunk, upperLimit := 0 }
        else t
      let t2 := { t1 with current := t1.current + 1, offset := 0 }
      moveRightByF fuel t2 (steps - (128 - t.offset))
    else
      let t3 := { t with offset := t.offset + steps }
      if (chunkAt t3 (t3.current + 1)).isNone ∧ t3.upperLimit < t3.offset then
        { t3 with upperLimit := t3.offset }
      else t3

/-- Entry point with sufficient fuel: every loop iteration spends at least
one step whenever `offset ≤ 127`, which holds on all tapes reachable
through this API. -/
def cattle_tape_move_right_by (t : CattleTape) (steps : Nat) : CattleTape :=
  moveRightByF (steps + 1) t steps

/-- `cattle_tape_move_left`: one step left. -/
def cattle_tape_move_left (t : CattleTape) : CattleTape :=
  cattle_tape_move_left_by t 1

/-- `cattle_tape_move_right`: one step right. -/
def cattle_tape_move_right (t : CattleTape) : CattleTape :=
  cattle_tape_move_right_by t 1

/-- `cattle_tape_push_bookmark`: push the current (chunk, offset) pair on
the bookmark stack. -/
def cattle_tape_push_bookmark (t : CattleTape) : CattleTape :=
  { t with bookmarks := (t.current, t.offset) :: t.bookmarks }

/-- `cattle_tape_pop_bookmark`: if the stack is non-empty, restore the
topmost saved position, drop it, and report `true`; otherwise report
`false` and leave the tape unchanged. -/
def cattle_tape_pop_bookmark (t : CattleTape) : Bool × CattleTape :=
  match t.bookmarks with
  | [] => (false, t)
  | (c, o) :: rest =>
    (true, { t with current := c, offset := o, bookmarks := rest })

/-- `cattle_tape_is_at_beginning`: the current chunk is the first one and
the offset equals the lower limit. -/
def cattle_tape_is_at_beginning (t : CattleTape) : Bool :=
  (chunkAt t (t.current - 1)).isNone && t.offset = t.lowerLimit

/-- `cattle_tape_is_at_end`: the current chunk is the last one and the
offset equals the upper limit. -/
def cattle_tape_is_at_end (t : CattleTape) : Bool :=
  (chunkAt t (t.current + 1)).isNone && t.offset = t.upperLimit

/-- Opcode corresponding to a simple (coalescible) source character; the
cases of the first `switch` in `load_from_string_real` other than the
brackets. -/
def simpleOpcode (c : Nat) : Option CattleInstructionValue :=
  if c = 0x3C then some .moveLeft
  else if c = 0x3E then some .moveRight
  else if c = 0x2B then some .increase
  else if c = 0x2D then some .decrease
  else if c = 0x2C then some .read
  else if c = 0x2E then some .print
  else if c = 0x23 then some .debug
  else none

/-- The inner coalescing loop of `load_from_string_real`: counts how many
further characters equal to `c` follow, and returns the remaining bytes
after the run.  (The C loop reads one character past the run and then steps
back with `g_utf8_prev_char`, so the net cursor movement is exactly the
run.) -/
def countRunF : Nat → Nat → List Nat → Nat × List Nat
  | 0, _, bs => (0, bs)
  | fuel + 1, c, bs =>
    match utf8NextChar bs with
    | some (c2, rest) =>
      if c2 = c then
        let p := countRunF fuel c rest
        (p.1 + 1, p.2)
      else (0, bs)
    | none => (0, bs)

/-- Entry point with sufficient fuel. -/
def countRun (c : Nat) (bs : List Nat) : Nat × List Nat :=
  countRunF (bs.length + 1) c bs

theorem countRunF_length (fuel c : Nat) (bs : List Nat) :
    (countRunF fuel c bs).2.length ≤ bs.length := by
  induction fuel generalizing bs with
  | zero => simp [countRunF]
  | succ fuel ih =>
    unfold countRunF
    split
    · rename_i c2 rest h
      split
      · simp only
        exact le_trans (ih rest) (le_of_lt (utf8NextChar_length h))
      · simp
    · simp

theorem countRun_length (c : Nat) (bs : List Nat) :
    (countRun c bs).2.length ≤ bs.length :=
  countRunF_length _ c bs

theorem countRunF_fuel (f : Nat) :
    ∀ (g c : Nat) (bs : List Nat), bs.length < f → bs.length < g →
      countRunF f c bs = countRunF g c bs := by
  induction f with
  | zero => intro g c bs hf; omega
  | succ f ih =>
    intro g c bs hf hg
    obtain ⟨g, rfl⟩ : ∃ k, g = k + 1 := ⟨g - 1, by omega⟩
    unfold countRunF
    split
    · rename_i c2 rest h
      have hlen := utf8NextChar_length h
      split
      · simp only [Prod.mk.injEq]
        rw [ih g c rest (by omega) (by omega)]
        simp
      · rfl
    · rfl

theorem countRun_cons {c c2 : Nat} {bs rest : List Nat}
    (h : utf8NextChar bs = some (c2, rest)) :
    countRun c bs =
      if c2 = c then ((countRun c rest).1 + 1, (countRun c rest).2)
      else (0, bs) := by
  have hlen := utf8NextChar_length h
  conv_lhs => unfold countRun countRunF
  rw [h]
  simp only
  unfold countRun
  rw [countRunF_fuel bs.length (rest.length + 1) c rest (by omega) (by omega)]

/-- Fuelled version of `load_from_string_real` (cattle-program.c).  Parses a
chain of instructions from the byte string, returning the chain and the
remaining bytes.  The chain ends with a quantity-1 NONE instruction when
parsing stops at the end of the string or at a bang, and with a LOOP_END
instruction when a `]` is read; a `[` recursively parses the loop body and
then the rest of the chain; a simple opcode is coalesced with its run;
any other character is skipped.  The fuel only serves Lean's termination
checker; `loadReal` below applies enough fuel that it is never exhausted. -/
def loadRealF : Nat → List Nat → Instruction × List Nat
  | 0, bs => (nopInstruction, bs)
  | fuel + 1, bs =>
    match utf8NextChar bs with
    | none => (nopInstruction, bs)
    | some (c, rest) =>
      if c = 0x21 then (nopInstruction, rest)
      else if c = 0x5B then
        let body := loadRealF fuel rest
        let chain := loadRealF fuel body.2
        (.node .loopBegin 1 (some chain.1) (some body.1), chain.2)
      else if c = 0x5D then (.node .loopEnd 1 none none, rest)
      else
        match simpleOpcode c with
        | some v =>
          let run := countRun c rest
          let chain := loadRealF fuel run.2
          (.node v (1 + run.1) (some chain.1) none, chain.2)
        | none => loadRealF fuel rest

theorem loadRealF_length (fuel : Nat) (bs : List Nat) :
    (loadRealF fuel bs).2.length ≤ bs.length := by
  induction fuel generalizing bs with
  | zero => simp [loadRealF]
  | succ fuel ih =>
    unfold loadRealF
    split
    · simp
    · rename_i c rest h
      have hlen := utf8NextChar_length h
      split
      · simpa using le_of_lt hlen
      · split
        · simp only
          calc (loadRealF fuel (loadRealF fuel rest).2).2.length
              ≤ (loadRealF fuel rest).2.length := ih _
            _ ≤ rest.length := ih _
            _ ≤ bs.length := le_of_lt hlen
        · split
          · simpa using le_of_lt hlen
          · split
            · simp only
              calc (loadRealF fuel (countRun c rest).2).2.length
                  ≤ (countRun c rest).2.length := ih _
                _ ≤ rest.length := countRun_length _ _
                _ ≤ bs.length := le_of_lt hlen
            · exact le_trans (ih rest) (le_of_lt hlen)

theorem loadRealF_fuel (f : Nat) :
    ∀ (g : Nat) (bs : List Nat), bs.length < f → bs.length < g →
      loadRealF f bs = loadRealF g bs := by
  induction f using Nat.strong_induction_on with
  | _ f ihf =>
    intro g bs hf hg
    obtain ⟨f, rfl⟩ : ∃ k, f = k + 1 := ⟨f - 1, by omega⟩
    obtain ⟨g, rfl⟩ : ∃ k, g = k + 1 := ⟨g - 1, by omega⟩
    have ih1 : ∀ (bs2 : List Nat) (g2 : Nat), bs2.length < f → bs2.length < g2 →
        loadRealF f bs2 = loadRealF g2 bs2 :=
      fun bs2 g2 h1 h2 => ihf f (Nat.lt_succ_self f) g2 bs2 h1 h2
    have hfbs : bs.length ≤ f := Nat.lt_succ_iff.mp hf
    have hgbs : bs.length ≤ g := Nat.lt_succ_iff.mp hg
    unfold loadRealF
    split
    · rfl
    · rename_i c rest h
      have hlen := utf8NextChar_length h
      split
      · rfl
      · split
        · simp only
          have hbody : loadRealF f rest = loadRealF g rest :=
            ih1 rest g (by omega) (by omega)
          rw [hbody]
          have hr1 : (loadRealF g rest).2.length ≤ rest.length := by
            rw [← hbody]
            exact loadRealF_length f rest
          have hchain : loadRealF f (loadRealF g rest).2 =
              loadRealF g (loadRealF g rest).2 :=
            ih1 (loadRealF g rest).2 g (by omega) (by omega)
          rw [hchain]
        · split
          · rfl
          · split
            · simp only
              have hr1 : (countRun c rest).2.length ≤ rest.length :=
                countRun_length c rest
              have hchain : loadRealF f (countRun c rest).2 =
                  loadRealF g (countRun c rest).2 :=
                ih1 (countRun c rest).2 g (by omega) (by omega)
              rw [hchain]
            · exact ih1 rest g (by omega) (by omega)

/-- `load_from_string_real` proper: the fuelled parser run with enough
fuel. -/
def loadReal (bs : List Nat) : Instruction × List Nat :=
  loadRealF (bs.length + 1) bs

/-- The bracket-balance pre-pass of `cattle_program_load_from_string`
(cattle-program.c, lines 326-362).  At the top of every iteration a
negative counter fails with `unmatchedBracket`; the scan stops at the end
of the string or at the first bang, failing with `unbalancedBrackets` when
the counter is non-zero there; `[` increments and `]` decrements the
counter. -/
def scanBracketsF : Nat → List Nat → Int → Except CattleProgramError Unit
  | 0, _, _ => .ok ()
  | fuel + 1, bs, count =>
    if count < 0 then .error .unmatchedBracket
    else
      match utf8NextChar bs with
      | none => if count ≠ 0 then .error .unbalancedBrackets else .ok ()
      | some (c, rest) =>
        if c = 0x21 then (if count ≠ 0 then .error .unbalancedBrackets else .ok ())
        else
          scanBracketsF fuel rest
            (count + (if c = 0x5B then 1 else 0) - (if c = 0x5D then 1 else 0))

/-- Entry point with sufficient fuel (the scan consumes at least one byte
per step). -/
def scanBrackets (bs : List Nat) (count : Int) : Except CattleProgramError Unit :=
  scanBracketsF (bs.length + 1) bs count

/-- A `CattleProgram`: the root of the instruction tree and the optional
program input (the bytes after the first bang; `NULL` in C when absent). -/
structure CattleProgram where
  instructions : Instruction
  input : Option (List Nat)

/-- `cattle_program_new`: a single NONE instruction and no input. -/
def cattle_program_new : CattleProgram :=
  { instructions := nopInstruction, input := none }

/-- `cattle_program_load_from_string`: validate the string as UTF-8
(failing with `badUtf8`), run the bracket pre-pass (failing with
`unmatchedBracket` or `unbalancedBrackets`), then parse the instructions
with `load_from_string_real` and store the bytes after the bang as the
program input when `g_utf8_strlen` of the remainder is positive. -/
def cattle_program_load_from_string (bs : List Nat) :
    Except CattleProgramError CattleProgram :=
  if utf8Valid bs = false then .error .badUtf8
  else
    match scanBrackets bs 0 with
    | .error e => .error e
    | .ok _ =>
      let p := loadReal bs
      .ok { instructions := p.1
            input := if 0 < (utf8Chars p.2).length then some p.2 else none }

/-- The `CattleEndOfInputAction` enumeration (cattle-configuration.h). -/
inductive CattleEndOfInputAction where
  | storeZero
  | storeEof
  | doNothing
deriving DecidableEq, Repr

/-- A `CattleConfiguration` (cattle-configuration.c): the end-of-input
action (default `storeZero`) and the debugging flag (default false). -/
structure CattleConfiguration where
  endOfInputAction : CattleEndOfInputAction
  debugIsEnabled : Bool
deriving DecidableEq, Repr

/-- `cattle_configuration_new`. -/
def cattle_configuration_new : CattleConfiguration :=
  { endOfInputAction := .storeZero, debugIsEnabled := false }

/-- The outcome of one handler invocation, as an oracle: the returned
success flag, the error value the handler populated (if any), and the
sequence of `cattle_interpreter_feed` calls it performed (each argument
being `none` for a NULL feed or the fed bytes). -/
structure HandlerReply where
  success : Bool
  err : Option CattleError
  feeds : List (Option (List Nat))

/-- The three handlers of an interpreter, modelled as oracles indexed by
the invocation count (so a handler may behave differently on every call,
like arbitrary C callbacks with mutable user data).  The output handler
additionally receives the byte being printed. -/
structure Handlers where
  inputH : Nat → HandlerReply
  outputH : Nat → Int → Bool × Option CattleError
  debugH : Nat → Bool × Option CattleError

/-- The interpreter state (`CattleInterpreterPrivate` in
cattle-interpreter.c) together with the objects it owns.  `input` is the
current input string (`NULL` modelled as `none`); `inputCursor` is the
position of the C `input_cursor` pointer, counted in characters from the
start of `input`.  The three call counters are model-level instrumentation
counting handler invocations; they are not part of the C state. -/
structure CattleInterpreter where
  configuration : CattleConfiguration
  program : CattleProgram
  tape : CattleTape
  hadInput : Bool
  input : Option (List Nat)
  inputCursor : Nat
  endOfInputReached : Bool
  stack : List Instruction
  inputCalls : Nat
  outputCalls : Nat
  debugCalls : Nat

/-- `cattle_interpreter_new` / `cattle_interpreter_init` for a given
program, configuration and fresh tape. -/
def cattle_interpreter_new (cfg : CattleConfiguration) (p : CattleProgram) :
    CattleInterpreter :=
  { configuration := cfg
    program := p
    tape := cattle_tape_new
    hadInput := false
    input := none
    inputCursor := 0
    endOfInputReached := false
    stack := []
    inputCalls := 0
    outputCalls := 0
    debugCalls := 0 }

/-- `cattle_interpreter_feed`: a NULL argument records that the end of
input was reached; otherwise the new input replaces the old one and the
cursor is placed at its start.  (The C function does not touch
`end_of_input_reached` in the non-NULL case.) -/
def cattle_interpreter_feed (s : CattleInterpreter)
    (inp : Option (List Nat)) : CattleInterpreter :=
  match inp with
  | none => { s with input := none, inputCursor := 0, endOfInputReached := true }
  | some l => { s with input := some l, inputCursor := 0 }

/-- Apply the sequence of feed calls performed by a handler. -/
def applyFeeds (s : CattleInterpreter) (feeds : List (Option (List Nat))) :
    CattleInterpreter :=
  feeds.foldl cattle_interpreter_feed s

/-- The handler failure policy shared by the three handler call sites in
`run` (cattle-interpreter.c): the result of
`success = handler(...); success &= (inner_error == NULL);`
followed by the error selection.  `none` means execution continues; `some
e` means `run` aborts with `e`, which is the handler's error when one was
populated and the generic I/O error otherwise. -/
def handlerOutcome (success : Bool) (err : Option CattleError) :
    Option CattleError :=
  if success && err.isNone then none
  else
    match err with
    | some e => some e
    | none => some .ioErr

/-- The character under the input cursor, read as `g_utf8_get_char
(input_cursor)`; `none` stands for reading the terminating NUL (or having
a NULL cursor because `input` is NULL). -/
def charAtCursor (s : CattleInterpreter) : Option Nat :=
  match s.input with
  | none => none
  | some bs => (utf8Chars bs).get? s.inputCursor

/-- One iteration of the `for` loop of the `CATTLE_INSTRUCTION_READ` case
of `run` (cattle-interpreter.c, lines 284-420): fetch more input through
the input handler when appropriate (step 1), normalize the current
character (step 2), and check it is ASCII or EOF.  Returns the retrieved
character value (`-1` for EOF) or the error that aborts `run`, together
with the updated state. -/
def readIter (h : Handlers) (s : CattleInterpreter) :
    Except CattleError Int × CattleInterpreter :=
  let step1 : Except CattleError Unit × CattleInterpreter :=
    if s.hadInput = false ∧ s.endOfInputReached = false then
      if (charAtCursor s).isNone then
        let reply := h.inputH s.inputCalls
        let s1 := applyFeeds { s with inputCalls := s.inputCalls + 1 } reply.feeds
        match handlerOutcome reply.success reply.err with
        | some e => (.error e, s1)
        | none => (.ok (), s1)
      else (.ok (), s)
    else (.ok (), s)
  match step1 with
  | (.error e, s1) => (.error e, s1)
  | (.ok _, s1) =>
    let safety : Except CattleError Unit × CattleInterpreter :=
      match s1.input with
      | none => (.ok (), { s1 with endOfInputReached := true })
      | some bs =>
        if utf8Valid bs then (.ok (), s1) else (.error .badUtf8, s1)
    match safety with
    | (.error e, s2) => (.error e, s2)
    | (.ok _, s2) =>
      let step2 : Int × CattleInterpreter :=
        if s2.endOfInputReached then (-1, s2)
        else
          match charAtCursor s2 with
          | none =>
            if s2.hadInput = false then (-1, { s2 with endOfInputReached := true })
            else (0, s2)
          | some ch => ((ch : Int), { s2 with inputCursor := s2.inputCursor + 1 })
      if (0 ≤ step2.1 ∧ step2.1 ≤ 127) ∨ step2.1 = -1 then (.ok step2.1, step2.2)
      else (.error .inputOutOfRange, step2.2)

/-- The read loop run `quantity` times; only the character retrieved by the
last iteration is returned (`temp` is overwritten on every iteration in
the C code). -/
def readLoop (h : Handlers) : Nat → CattleInterpreter →
    Except CattleError Int × CattleInterpreter
  | 0, s => (.ok 0, s)
  | n + 1, s =>
    match readIter h s with
    | (.error e, s1) => (.error e, s1)
    | (.ok temp, s1) => if n = 0 then (.ok temp, s1) else readLoop h n s1

/-- Step 3 of the READ case: store the retrieved character.  The
end-of-input action applies only when the character is the EOF sentinel
`-1`; any other character is written to the tape unconditionally. -/
def readStore (cfg : CattleConfiguration) (temp : Int)
    (s : CattleInterpreter) : CattleInterpreter :=
  if temp = -1 then
    match cfg.endOfInputAction with
    | .storeZero => { s with tape := cattle_tape_set_current_value s.tape 0 }
    | .storeEof => { s with tape := cattle_tape_set_current_value s.tape (-1) }
    | .doNothing => s
  else { s with tape := cattle_tape_set_current_value s.tape temp }

/-- The complete `CATTLE_INSTRUCTION_READ` case of `run`: iterate the read
loop and store the final character.  The loader never produces a READ with
quantity 0; in C that case would use an uninitialized `temp`, and it is
modelled as a no-op. -/
def readExec (h : Handlers) (cfg : CattleConfiguration) (q : Nat)
    (s : CattleInterpreter) : Option CattleError × CattleInterpreter :=
  if q = 0 then (none, s)
  else
    match readLoop h q s with
    | (.error e, s1) => (some e, s1)
    | (.ok temp, s1) => (none, readStore cfg temp s1)

/-- The `CATTLE_INSTRUCTION_PRINT` case of `run`: call the output handler
once per unit of quantity with the current cell value, stopping at the
first failure. -/
def printExec (h : Handlers) : Nat → CattleInterpreter →
    Option CattleError × CattleInterpreter
  | 0, s => (none, s)
  | n + 1, s =>
    let reply := h.outputH s.outputCalls (cattle_tape_get_current_value s.tape)
    let s1 := { s with outputCalls := s.outputCalls + 1 }
    match handlerOutcome reply.1 reply.2 with
    | some e => (some e, s1)
    | none => printExec h n s1

/-- The loop of the `CATTLE_INSTRUCTION_DEBUG` case of `run`: call the
debug handler once per unit of quantity, stopping at the first failure
(the whole case is skipped when debugging is disabled). -/
def debugExec (h : Handlers) : Nat → CattleInterpreter →
    Option CattleError × CattleInterpreter
  | 0, s => (none, s)
  | n + 1, s =>
    let reply := h.debugH s.debugCalls
    let s1 := { s with debugCalls := s.debugCalls + 1 }
    match handlerOutcome reply.1 reply.2 with
    | some e => (some e, s1)
    | none => debugExec h n s1

/-- Result of a `run` invocation: success, failure with an error, or fuel
exhaustion (the model's way of accounting for non-terminating Brainfuck
programs; the C `run` simply does not return in that case). -/
inductive RunResult where
  | success
  | failure (e : CattleError)
  | fuelOut
deriving DecidableEq, Repr

/-- The main tree-walking loop of the static `run` function
(cattle-interpreter.c, lines 167-563), fuelled.  `cur` is the `current`
instruction (`none` when the chain is exhausted); the loop stack lives in
the state.  On chain exhaustion a non-empty stack is an unbalanced
brackets error; a LOOP_BEGIN over a non-zero cell pushes itself and enters
its body; a LOOP_END pops the matching LOOP_BEGIN (an empty stack is an
unbalanced brackets error); the remaining opcodes act on the tape or call
the handlers as modelled above. -/
def runF (h : Handlers) (cfg : CattleConfiguration) :
    Nat → Option Instruction → CattleInterpreter → RunResult × CattleInterpreter
  | 0, _, s => (.fuelOut, s)
  | _ + 1, none, s =>
    if s.stack.isEmpty then (.success, s) else (.failure .unbalancedBrackets, s)
  | fuel + 1, some cur, s =>
    match cur with
    | .node v q next lp =>
      match v with
      | .loopBegin =>
        if cattle_tape_get_current_value s.tape ≠ 0 then
          runF h cfg fuel lp { s with stack := cur :: s.stack }
        else runF h cfg fuel next s
      | .loopEnd =>
        match s.stack with
        | [] => (.failure .unbalancedBrackets, s)
        | top :: rest => runF h cfg fuel (some top) { s with stack := rest }
      | .moveLeft => runF h cfg fuel next
          { s with tape := cattle_tape_move_left_by s.tape q }
      | .moveRight => runF h cfg fuel next
          { s with tape := cattle_tape_move_right_by s.tape q }
      | .increase => runF h cfg fuel next
          { s with tape := cattle_tape_increase_current_value_by s.tape (q : Int) }
      | .decrease => runF h cfg fuel next
          { s with tape := cattle_tape_decrease_current_value_by s.tape (q : Int) }
      | .read =>
        match readExec h cfg q s with
        | (some e, s1) => (.failure e, s1)
        | (none, s1) => runF h cfg fuel next s1
      | .print =>
        match printExec h q s with
        | (some e, s1) => (.failure e, s1)
        | (none, s1) => runF h cfg fuel next s1
      | .debug =>
        if cfg.debugIsEnabled then
          match debugExec h q s with
          | (some e, s1) => (.failure e, s1)
          | (none, s1) => runF h cfg fuel next s1
        else runF h cfg fuel next s
      | .nop => runF h cfg fuel next s

/-- `cattle_interpreter_run` (the public entry point): reset the stack and
`had_input`, install the program's input with the cursor at its start, run
the walker, then release a program-owned input and clear `had_input` and
the stack.  `end_of_input_reached` is never reset here.  The handler call
counters are model instrumentation and are zeroed at the start so that
they count this run's invocations. -/
def cattle_interpreter_run (h : Handlers) (fuel : Nat) (s : CattleInterpreter) :
    RunResult × CattleInterpreter :=
  let s0 := { s with
    stack := ([] : List Instruction)
    hadInput := (s.program.input).isSome
    input := s.program.input
    inputCursor := 0
    inputCalls := 0
    outputCalls := 0
    debugCalls := 0 }
  let r := runF h s.configuration fuel (some s.program.instructions) s0
  let s2 := if r.2.hadInput then { r.2 with input := none, inputCursor := 0 } else r.2
  (r.1, { s2 with hadInput := false, stack := [] })

theorem tmod_bounds (a : Int) : -128 < Int.tmod a 128 ∧ Int.tmod a 128 < 128 := by
  match a with
  | .ofNat m =>
    have h1 : Int.tmod (Int.ofNat m) 128 = ((m % 128 : Nat) : Int) := rfl
    rw [h1]
    have := Nat.mod_lt m (show 0 < 128 by norm_num)
    omega
  | .negSucc m =>
    have h1 : Int.tmod (Int.negSucc m) 128 = -(((m + 1) % 128 : Nat) : Int) := rfl
    rw [h1]
    have := Nat.mod_lt (m + 1) (show 0 < 128 by norm_num)
    omega

theorem tmod_cong (a : Int) : Int.tmod a 128 % 128 = a % 128 := by
  conv_rhs => rw [← Int.tmod_add_tdiv a 128]
  rw [Int.add_mul_emod_self_left]

/-- The C sequence `r = (a) % 128; if (r < 0) r = 128 + r;` computes the
mathematical (Euclidean) remainder of `a` by 128. -/
theorem tmod_adjust (a : Int) :
    (if Int.tmod a 128 < 0 then 128 + Int.tmod a 128 else Int.tmod a 128) =
      a % 128 := by
  have hb := tmod_bounds a
  have hc := tmod_cong a
  split
  · omega
  · omega

theorem wrapIncreaseF_eq {fuel : Nat} (hf : 1 ≤ fuel) {cur : Int} (h0 : 0 ≤ cur)
    (h1 : cur < 128) (k : Int) : wrapIncreaseF fuel cur k = (cur + k) % 128 := by
  obtain ⟨fuel, rfl⟩ : ∃ m, fuel = m + 1 := ⟨fuel - 1, by omega⟩
  unfold wrapIncreaseF
  split
  · rename_i hk
    subst hk
    rw [Int.add_zero]
    exact (Int.emod_eq_of_lt h0 h1).symm
  · split
    · omega
    · simp only
      exact tmod_adjust (cur + k)

/-- On a non-EOF cell value the wrapping arithmetic of
`cattle_tape_increase_current_value_by` is addition modulo 128. -/
theorem wrapIncrease_eq {cur : Int} (h0 : 0 ≤ cur) (h1 : cur < 128) (k : Int) :
    wrapIncrease cur k = (cur + k) % 128 :=
  wrapIncreaseF_eq (by omega) h0 h1 k

/-- Increasing an EOF-valued cell by a positive amount first steps to 0 and
then adds the rest, again modulo 128. -/
theorem wrapIncrease_eof {k : Int} (hk : 1 ≤ k) :
    wrapIncrease (-1) k = (k - 1) % 128 := by
  unfold wrapIncrease wrapIncreaseF
  have hne : ¬(k = 0) := by omega
  rw [if_neg hne, if_pos rfl, if_pos (by omega : (0:Int) < k)]
  have hfuel : 1 ≤ k.natAbs := by omega
  rw [wrapIncreaseF_eq hfuel (by norm_num) (by norm_num) (k - 1)]
  rw [Int.zero_add]

theorem fresh_set_valid {v : Int} (hv : (0 ≤ v ∧ v ≤ 127) ∨ v = -1) :
    cattle_tape_set_current_value cattle_tape_new v =
      { cattle_tape_new with rightChunks := [freshChunk.set 0 v] } := by
  rw [cattle_tape_set_current_value, if_pos hv]
  rfl

theorem fresh_inc_get {v : Int} (hv : (0 ≤ v ∧ v ≤ 127) ∨ v = -1) (k : Int) :
    cattle_tape_get_current_value
      (cattle_tape_increase_current_value_by
        (cattle_tape_set_current_value cattle_tape_new v) k) =
      wrapIncrease v k := by
  rw [fresh_set_valid hv]
  by_cases hk : k = 0
  · subst hk
    rw [cattle_tape_increase_current_value_by, if_pos rfl]
    rfl
  · rw [cattle_tape_increase_current_value_by, if_neg hk]
    rfl

/-- The wrapping formula asserted by the specification: reinterpret an
integer's residue modulo 256 as a signed 8-bit value.  This definition
follows the spec's words, for comparison with the implementation. -/
def specSigned8 (n : Int) : Int :=
  if n % 256 < 128 then n % 256 else n % 256 - 256

/-- The value the claim predicts for the cell after
`set_value(v); increase_by(k)`: `((v + (k mod 256)) mod 256)` reinterpreted
as signed 8-bit.  Follows the spec's words. -/
def claimWrapAdd (v k : Int) : Int := specSigned8 (v + k % 256)

/-- C1: (amended) on this tape the wrap is modulo 128, not modulo 256, and
only values in `[0,127]` or the EOF value `-1` can be stored at all.  For
`v ∈ [0,127]` and an unsigned delta `k`, `set_value(v); increase_by(k)`
leaves the cell at `(v + k) mod 128` and `decrease_by(k)` at
`(v - k) mod 128`; a delta of 0 is a no-op; `set_value` with a value
outside `[0,127] ∪ {-1}` is rejected and leaves the tape unchanged; from
the EOF value `-1`, a positive delta `k` leaves the cell at
`(k - 1) mod 128`. -/
theorem spec_c1_wrapping_mod128 (v k : Int)
    (h0 : 0 ≤ v) (h1 : v ≤ 127) (hk : 0 ≤ k) :
    (cattle_tape_get_current_value
      (cattle_tape_increase_current_value_by
        (cattle_tape_set_current_value cattle_tape_new v) k) = (v + k) % 128)
  ∧ (cattle_tape_get_current_value
      (cattle_tape_decrease_current_value_by
        (cattle_tape_set_current_value cattle_tape_new v) k) = (v - k) % 128)
  ∧ cattle_tape_increase_current_value_by
      (cattle_tape_set_current_value cattle_tape_new v) 0 =
      cattle_tape_set_current_value cattle_tape_new v
  ∧ (∀ w : Int, ¬((0 ≤ w ∧ w ≤ 127) ∨ w = -1) →
      cattle_tape_set_current_value cattle_tape_new w = cattle_tape_new)
  ∧ (1 ≤ k →
      cattle_tape_get_current_value
        (cattle_tape_increase_current_value_by
          (cattle_tape_set_current_value cattle_tape_new (-1)) k) =
        (k - 1) % 128) := by
  have hv : (0 ≤ v ∧ v ≤ 127) ∨ v = -1 := Or.inl ⟨h0, h1⟩
  refine ⟨?_, ?_, ?_, ?_, ?_⟩
  · rw [fresh_inc_get hv k]
    exact wrapIncrease_eq h0 (by omega) k
  · rw [cattle_tape_decrease_current_value_by, fresh_inc_get hv (-k)]
    rw [wrapIncrease_eq h0 (by omega) (-k), Int.sub_eq_add_neg]
  · rw [cattle_tape_increase_current_value_by, if_pos rfl]
  · intro w hw
    rw [cattle_tape_set_current_value, if_neg hw]
  · intro hk1
    rw [fresh_inc_get (Or.inr rfl) k]
    exact wrapIncrease_eof hk1

/-- C1 witness: the amended statement evaluated at `v = 5`, `k = 200`:
increasing gives 77 and decreasing gives 61. -/
theorem spec_c1_wrapping_mod128_witness :
    cattle_tape_get_current_value
      (cattle_tape_increase_current_value_by
        (cattle_tape_set_current_value cattle_tape_new 5) 200) = 77
  ∧ cattle_tape_get_current_value
      (cattle_tape_decrease_current_value_by
        (cattle_tape_set_current_value cattle_tape_new 5) 200) = 61 := by
  have h := spec_c1_wrapping_mod128 5 200 (by norm_num) (by norm_num) (by norm_num)
  exact ⟨by rw [h.1]; decide, by rw [h.2.1]; decide⟩

/-- C1 counterexample: at `v = 5`, `k = 200` the cell holds 77 after
`set_value(5); increase_by(200)`, while the claim's mod-256 formula
predicts -51. -/
theorem spec_c1_counterexample :
    cattle_tape_get_current_value
      (cattle_tape_increase_current_value_by
        (cattle_tape_set_current_value cattle_tape_new 5) 200) = 77
  ∧ claimWrapAdd 5 200 = -51
  ∧ (77 : Int) ≠ -51 := by
  refine ⟨by decide, by decide, by decide⟩

/-- A cursor move on the tape: the two cursor-moving operations of the
tape API with their step count. -/
inductive TapeMove where
  | left (n : Nat)
  | right (n : Nat)

/-- Apply one cursor move. -/
def applyMove (t : CattleTape) : TapeMove → CattleTape
  | .left n => cattle_tape_move_left_by t n
  | .right n => cattle_tape_move_right_by t n

/-- Apply a sequence of cursor moves left to right. -/
def applyMoves (ms : List TapeMove) (t : CattleTape) : CattleTape :=
  ms.foldl applyMove t

theorem moveLeftByF_bookmarks (fuel : Nat) :
    ∀ (t : CattleTape) (steps : Nat),
      (moveLeftByF fuel t steps).bookmarks = t.bookmarks := by
  induction fuel with
  | zero => intro t steps; rfl
  | succ fuel ih =>
    intro t steps
    unfold moveLeftByF
    split
    · simp only
      rw [ih]
      split
      · rfl
      · rfl
    · simp only
      split
      · rfl
      · rfl

theorem moveRightByF_bookmarks (fuel : Nat) :
    ∀ (t : CattleTape) (steps : Nat),
      (moveRightByF fuel t steps).bookmarks = t.bookmarks := by
  induction fuel with
  | zero => intro t steps; rfl
  | succ fuel ih =>
    intro t steps
    unfold moveRightByF
    split
    · simp only
      rw [ih]
      split
      · rfl
      · rfl
    · simp only
      split
      · rfl
      · rfl

theorem applyMove_bookmarks (t : CattleTape) (m : TapeMove) :
    (applyMove t m).bookmarks = t.bookmarks := by
  cases m with
  | left n =>
    show (cattle_tape_move_left_by t n).bookmarks = t.bookmarks
    unfold cattle_tape_move_left_by
    exact moveLeftByF_bookmarks _ _ _
  | right n =>
    show (cattle_tape_move_right_by t n).bookmarks = t.bookmarks
    unfold cattle_tape_move_right_by
    exact moveRightByF_bookmarks _ _ _

theorem applyMoves_bookmarks (ms : List TapeMove) :
    ∀ (t : CattleTape), (applyMoves ms t).bookmarks = t.bookmarks := by
  induction ms with
  | nil => intro t; rfl
  | cons m ms ih =>
    intro t
    show (applyMoves ms (applyMove t m)).bookmarks = t.bookmarks
    rw [ih, applyMove_bookmarks]

/-- After a push and any sequence of cursor moves, popping restores exactly
the (chunk, offset) saved at the push and uncovers the previous bookmark
stack. -/
theorem pop_after_moves (t : CattleTape) (ms : List TapeMove) :
    cattle_tape_pop_bookmark (applyMoves ms (cattle_tape_push_bookmark t)) =
      (true,
        { applyMoves ms (cattle_tape_push_bookmark t) with
          current := t.current, offset := t.offset,
          bookmarks := t.bookmarks }) := by
  have hb : (applyMoves ms (cattle_tape_push_bookmark t)).bookmarks =
      (t.current, t.offset) :: t.bookmarks := by
    rw [applyMoves_bookmarks]
    rfl
  unfold cattle_tape_pop_bookmark
  rw [hb]

/-- C8: push_bookmark followed by arbitrary cursor moves followed by
pop_bookmark restores the cursor to the (chunk, offset) it had at push
time; successive push/pop pairs are LIFO; and pop_bookmark on an empty
stack reports false and leaves the tape unchanged. -/
theorem spec_c8_bookmark_stack (t : CattleTape) (ms : List TapeMove) :
    (cattle_tape_pop_bookmark (applyMoves ms (cattle_tape_push_bookmark t)) =
      (true,
        { applyMoves ms (cattle_tape_push_bookmark t) with
          current := t.current, offset := t.offset,
          bookmarks := t.bookmarks }))
  ∧ (t.bookmarks = [] → cattle_tape_pop_bookmark t = (false, t))
  ∧ (∀ ms2 : List TapeMove,
      (cattle_tape_pop_bookmark
        (applyMoves ms2 (cattle_tape_push_bookmark
          (applyMoves ms (cattle_tape_push_bookmark t))))).2.current =
        (applyMoves ms (cattle_tape_push_bookmark t)).current
      ∧ (cattle_tape_pop_bookmark
          (applyMoves ms2 (cattle_tape_push_bookmark
            (applyMoves ms (cattle_tape_push_bookmark t))))).2.offset =
          (applyMoves ms (cattle_tape_push_bookmark t)).offset
      ∧ (cattle_tape_pop_bookmark (cattle_tape_pop_bookmark
          (applyMoves ms2 (cattle_tape_push_bookmark
            (applyMoves ms (cattle_tape_push_bookmark t))))).2).2.current =
          t.current
      ∧ (cattle_tape_pop_bookmark (cattle_tape_pop_bookmark
          (applyMoves ms2 (cattle_tape_push_bookmark
            (applyMoves ms (cattle_tape_push_bookmark t))))).2).2.offset =
          t.offset) := by
  refine ⟨pop_after_moves t ms, ?_, ?_⟩
  · intro hb
    unfold cattle_tape_pop_bookmark
    rw [hb]
  · intro ms2
    set t1 := applyMoves ms (cattle_tape_push_bookmark t) with ht1
    have h2 := pop_after_moves t1 ms2
    rw [h2]
    refine ⟨rfl, rfl, ?_, ?_⟩
    · have hb1 : t1.bookmarks = (t.current, t.offset) :: t.bookmarks := by
        rw [ht1, applyMoves_bookmarks]
        rfl
      unfold cattle_tape_pop_bookmark
      simp only
      rw [hb1]
    · have hb1 : t1.bookmarks = (t.current, t.offset) :: t.bookmarks := by
        rw [ht1, applyMoves_bookmarks]
        rfl
      unfold cattle_tape_pop_bookmark
      simp only
      rw [hb1]

/-- C8 witness: the bookmark round trip evaluated on a fresh tape with a
three-step right move, and the empty-stack pop on a fresh tape. -/
theorem spec_c8_bookmark_stack_witness :
    cattle_tape_pop_bookmark
        (applyMoves [TapeMove.right 3] (cattle_tape_push_bookmark cattle_tape_new)) =
      (true,
        { applyMoves [TapeMove.right 3] (cattle_tape_push_bookmark cattle_tape_new) with
          current := cattle_tape_new.current, offset := cattle_tape_new.offset,
          bookmarks := cattle_tape_new.bookmarks })
  ∧ cattle_tape_pop_bookmark cattle_tape_new = (false, cattle_tape_new) := by
  have h := spec_c8_bookmark_stack cattle_tape_new [TapeMove.right 3]
  exact ⟨h.1, h.2.1 rfl⟩

/-- With the end-of-input flag already set, one read iteration invokes no
handler, changes nothing, and retrieves the EOF sentinel (provided the
current input, if any, is valid UTF-8). -/
theorem readIter_endReached (h : Handlers) (s : CattleInterpreter)
    (he : s.endOfInputReached = true)
    (hv : s.input = none ∨ ∃ bs, s.input = some bs ∧ utf8Valid bs = true) :
    readIter h s = (.ok (-1), s) := by
  obtain ⟨cfg, p, tape, hi, inp, cur, eoi, st, ic, oc, dc⟩ := s
  simp only at he
  subst he
  unfold readIter
  simp only [Bool.true_eq_false, and_false, if_false, if_true, reduceIte]
  rcases hv with hnone | ⟨bs, hsome, hval⟩
  · simp only at hnone
    subst hnone
    simp only
    norm_num
  · simp only at hsome
    subst hsome
    simp only [hval]
    norm_num

theorem readLoop_endReached (h : Handlers) :
    ∀ (n : Nat) (s : CattleInterpreter), 1 ≤ n →
      s.endOfInputReached = true →
      (s.input = none ∨ ∃ bs, s.input = some bs ∧ utf8Valid bs = true) →
      readLoop h n s = (.ok (-1), s) := by
  intro n
  induction n with
  | zero => intro s hn; omega
  | succ n ih =>
    intro s hn he hv
    unfold readLoop
    rw [readIter_endReached h s he hv]
    by_cases h0 : n = 0
    · subst h0
      simp
    · simp only [h0, if_false]
      exact ih s (by omega) he hv

/-- With the end-of-input flag set, executing a whole READ instruction of
any positive quantity performs no handler call and just applies the
end-of-input action to the tape. -/
theorem readExec_endReached (h : Handlers) (cfg : CattleConfiguration)
    (q : Nat) (s : CattleInterpreter) (hq : 1 ≤ q)
    (he : s.endOfInputReached = true)
    (hv : s.input = none ∨ ∃ bs, s.input = some bs ∧ utf8Valid bs = true) :
    readExec h cfg q s = (none, readStore cfg (-1) s) := by
  unfold readExec
  rw [if_neg (by omega : ¬q = 0), readLoop_endReached h q s hq he hv]

/-- With embedded input present (`had_input`), a read iteration never calls
the input handler: it consumes exactly one character from the input and
advances the cursor. -/
theorem readIter_consume (h : Handlers) (s : CattleInterpreter)
    {bs : List Nat} {ch : Nat}
    (hhi : s.hadInput = true) (he : s.endOfInputReached = false)
    (hin : s.input = some bs) (hval : utf8Valid bs = true)
    (hch : (utf8Chars bs).get? s.inputCursor = some ch) (hr : ch ≤ 127) :
    readIter h s = (.ok (ch : Int), { s with inputCursor := s.inputCursor + 1 }) := by
  obtain ⟨cfg, p, tape, hi, inp, cur, eoi, st, ic, oc, dc⟩ := s
  simp only at hhi he hin hch
  subst hhi
  subst he
  subst hin
  unfold readIter
  simp only [Bool.true_eq_false, false_and, if_false, reduceIte, hval, if_true]
  unfold charAtCursor
  simp only [hch]
  have h0 : (0 : Int) ≤ (ch : Int) := by omega
  have h127 : (ch : Int) ≤ 127 := by exact_mod_cast hr
  rw [if_pos (Or.inl ⟨h0, h127⟩)]
  norm_num

/-- With embedded input and at least `n` characters available from the
cursor on (all in the ASCII range), the read loop consumes exactly `n`
characters, never calls a handler, and returns the last consumed
character. -/
theorem readLoop_consume (h : Handlers) :
    ∀ (n : Nat) (s : CattleInterpreter) (bs : List Nat) (ch : Nat),
      1 ≤ n →
      s.hadInput = true → s.endOfInputReached = false →
      s.input = some bs → utf8Valid bs = true →
      (∀ i : Nat, i < n →
        ∃ c, (utf8Chars bs).get? (s.inputCursor + i) = some c ∧ c ≤ 127) →
      (utf8Chars bs).get? (s.inputCursor + (n - 1)) = some ch →
      readLoop h n s = (.ok (ch : Int), { s with inputCursor := s.inputCursor + n }) := by
  intro n
  induction n with
  | zero => intro s bs ch hn; omega
  | succ n ih =>
    intro s bs ch hn hhi he hin hval hall hlast
    obtain ⟨c0, hc0, hc0r⟩ := hall 0 (by omega)
    rw [Nat.add_zero] at hc0
    unfold readLoop
    rw [readIter_consume h s hhi he hin hval hc0 hc0r]
    by_cases h0 : n = 0
    · subst h0
      simp only [if_pos rfl]
      rw [Nat.add_zero] at hlast
      rw [hc0] at hlast
      cases hlast
      rfl
    · simp only [h0, if_false]
      have hres := ih { s with inputCursor := s.inputCursor + 1 } bs ch (by omega)
        hhi he hin hval
        (by
          intro i hi
          obtain ⟨c, hc, hcr⟩ := hall (i + 1) (by omega)
          refine ⟨c, ?_, hcr⟩
          simp only
          rw [show s.inputCursor + 1 + i = s.inputCursor + (i + 1) by omega]
          exact hc)
        (by
          simp only
          rw [show s.inputCursor + 1 + (n - 1) = s.inputCursor + (n + 1 - 1) by omega]
          exact hlast)
      rw [hres]
      simp only
      rw [show s.inputCursor + 1 + n = s.inputCursor + (n + 1) by omega]

/-- Without embedded input and with no input fed yet, a read iteration
invokes the input handler; when the handler succeeds without feeding
anything, the interpreter records that the end of input is reached and the
iteration retrieves the EOF sentinel. -/
theorem readIter_noInput (h : Handlers) (s : CattleInterpreter)
    (hhi : s.hadInput = false) (he : s.endOfInputReached = false)
    (hin : s.input = none)
    (hreply : h.inputH s.inputCalls = ⟨true, none, []⟩) :
    readIter h s =
      (.ok (-1),
        { s with inputCalls := s.inputCalls + 1, endOfInputReached := true }) := by
  obtain ⟨cfg, p, tape, hi, inp, cur, eoi, st, ic, oc, dc⟩ := s
  simp only at hhi he hin hreply
  subst hhi
  subst he
  subst hin
  unfold readIter
  simp only [and_self, if_true, reduceIte]
  unfold charAtCursor
  simp only [Option.isNone_none, if_true, reduceIte, hreply]
  unfold applyFeeds handlerOutcome
  norm_num

/-- Without embedded input and a handler that succeeds without feeding, a
whole READ instruction of positive quantity calls the input handler
exactly once (further iterations see the end-of-input flag) and retrieves
the EOF sentinel. -/
theorem readLoop_noInput (h : Handlers) :
    ∀ (n : Nat) (s : CattleInterpreter), 1 ≤ n →
      s.hadInput = false → s.endOfInputReached = false → s.input = none →
      h.inputH s.inputCalls = ⟨true, none, []⟩ →
      readLoop h n s =
        (.ok (-1),
          { s with inputCalls := s.inputCalls + 1, endOfInputReached := true }) := by
  intro n
  match n with
  | 0 => intro s hn; omega
  | n + 1 =>
    intro s hn hhi he hin hreply
    unfold readLoop
    rw [readIter_noInput h s hhi he hin hreply]
    by_cases h0 : n = 0
    · subst h0
      simp
    · simp only [h0, if_false]
      exact readLoop_endReached h n _ (by omega) rfl (Or.inl (by simpa using hin))

theorem readExec_noInput (h : Handlers) (cfg : CattleConfiguration)
    (q : Nat) (s : CattleInterpreter) (hq : 1 ≤ q)
    (hhi : s.hadInput = false) (he : s.endOfInputReached = false)
    (hin : s.input = none)
    (hreply : h.inputH s.inputCalls = ⟨true, none, []⟩) :
    readExec h cfg q s =
      (none,
        readStore cfg (-1)
          { s with inputCalls := s.inputCalls + 1, endOfInputReached := true }) := by
  unfold readExec
  rw [if_neg (by omega : ¬q = 0), readLoop_noInput h q s hq hhi he hin hreply]

theorem readStore_fields (cfg : CattleConfiguration) (temp : Int)
    (s : CattleInterpreter) :
    (readStore cfg temp s).endOfInputReached = s.endOfInputReached
  ∧ (readStore cfg temp s).inputCalls = s.inputCalls
  ∧ (readStore cfg temp s).input = s.input := by
  unfold readStore
  split
  · split <;> exact ⟨rfl, rfl, rfl⟩
  · exact ⟨rfl, rfl, rfl⟩

/-- A read iteration on a state whose end-of-input flag is set never calls
the input handler and keeps the flag and the input unchanged, whatever the
input's contents. -/
theorem readIter_fields (h : Handlers) (s : CattleInterpreter)
    (he : s.endOfInputReached = true) :
    (readIter h s).2.endOfInputReached = true
  ∧ (readIter h s).2.inputCalls = s.inputCalls
  ∧ (readIter h s).2.input = s.input := by
  obtain ⟨cfg, p, tape, hi, inp, cur, eoi, st, ic, oc, dc⟩ := s
  simp only at he
  subst he
  unfold readIter
  simp only [Bool.true_eq_false, and_false, if_false, reduceIte]
  cases inp with
  | none => norm_num
  | some bs =>
    simp only
    by_cases hval : utf8Valid bs
    · simp only [hval, if_true, reduceIte]
      norm_num
    · simp only [hval, if_false, reduceIte]
      norm_num

theorem readLoop_fields (h : Handlers) :
    ∀ (n : Nat) (s : CattleInterpreter), s.endOfInputReached = true →
      (readLoop h n s).2.endOfInputReached = true
    ∧ (readLoop h n s).2.inputCalls = s.inputCalls
    ∧ (readLoop h n s).2.input = s.input := by
  intro n
  induction n with
  | zero => intro s he; exact ⟨he, rfl, rfl⟩
  | succ n ih =>
    intro s he
    have hf := readIter_fields h s he
    unfold readLoop
    cases hri : readIter h s with
    | mk res s1 =>
      rw [hri] at hf
      simp only at hf
      cases res with
      | error e => simpa using hf
      | ok temp =>
        by_cases h0 : n = 0
        · subst h0
          simpa using hf
        · simp only [h0, if_false]
          have h2 := ih s1 hf.1
          exact ⟨h2.1, by rw [h2.2.1, hf.2.1], by rw [h2.2.2, hf.2.2]⟩

theorem readExec_fields (h : Handlers) (cfg : CattleConfiguration)
    (q : Nat) (s : CattleInterpreter) (he : s.endOfInputReached = true) :
    (readExec h cfg q s).2.endOfInputReached = true
  ∧ (readExec h cfg q s).2.inputCalls = s.inputCalls
  ∧ (readExec h cfg q s).2.input = s.input := by
  unfold readExec
  by_cases h0 : q = 0
  · simp only [h0, if_pos rfl]
    exact ⟨he, rfl, rfl⟩
  · simp only [h0, if_false]
    have hf := readLoop_fields h q s he
    cases hl : readLoop h q s with
    | mk res s1 =>
      rw [hl] at hf
      simp only at hf
      cases res with
      | error e => simpa using hf
      | ok temp =>
        simp only
        have hs := readStore_fields cfg temp s1
        exact ⟨by rw [hs.1, hf.1], by rw [hs.2.1, hf.2.1], by rw [hs.2.2, hf.2.2]⟩

theorem printExec_fields (h : Handlers) :
    ∀ (n : Nat) (s : CattleInterpreter),
      (printExec h n s).2.endOfInputReached = s.endOfInputReached
    ∧ (printExec h n s).2.inputCalls = s.inputCalls
    ∧ (printExec h n s).2.input = s.input := by
  intro n
  induction n with
  | zero => intro s; exact ⟨rfl, rfl, rfl⟩
  | succ n ih =>
    intro s
    unfold printExec
    refine ⟨?_, ?_, ?_⟩
    · simp only
      split
      · rfl
      · exact (ih _).1
    · simp only
      split
      · rfl
      · exact (ih _).2.1
    · simp only
      split
      · rfl
      · exact (ih _).2.2

theorem debugExec_fields (h : Handlers) :
    ∀ (n : Nat) (s : CattleInterpreter),
      (debugExec h n s).2.endOfInputReached = s.endOfInputReached
    ∧ (debugExec h n s).2.inputCalls = s.inputCalls
    ∧ (debugExec h n s).2.input = s.input := by
  intro n
  induction n with
  | zero => intro s; exact ⟨rfl, rfl, rfl⟩
  | succ n ih =>
    intro s
    unfold debugExec
    refine ⟨?_, ?_, ?_⟩
    · simp only
      split
      · rfl
      · exact (ih _).1
    · simp only
      split
      · rfl
      · exact (ih _).2.1
    · simp only
      split
      · rfl
      · exact (ih _).2.2

/-- Main invariant behind C10: once the end-of-input flag is set, the whole
tree walk keeps it set, never invokes the input handler, and never changes
the input buffer. -/
theorem runF_endReached_invariant (h : Handlers) (cfg : CattleConfiguration) :
    ∀ (fuel : Nat) (cur : Option Instruction) (s : CattleInterpreter),
      s.endOfInputReached = true →
      (runF h cfg fuel cur s).2.endOfInputReached = true
    ∧ (runF h cfg fuel cur s).2.inputCalls = s.inputCalls
    ∧ (runF h cfg fuel cur s).2.input = s.input := by
  intro fuel
  induction fuel with
  | zero => intro cur s he; exact ⟨he, rfl, rfl⟩
  | succ fuel ih =>
    intro cur s he
    match cur with
    | none =>
      unfold runF
      split
      · exact ⟨he, rfl, rfl⟩
      · exact ⟨he, rfl, rfl⟩
    | some (Instruction.node v q next lp) =>
      unfold runF
      cases v with
      | loopBegin =>
        simp only
        split
        · exact ih lp _ he
        · exact ih next s he
      | loopEnd =>
        simp only
        split
        · exact ⟨he, rfl, rfl⟩
        · exact ih _ _ he
      | moveLeft => exact ih next _ he
      | moveRight => exact ih next _ he
      | increase => exact ih next _ he
      | decrease => exact ih next _ he
      | read =>
        simp only
        have hf := readExec_fields h cfg q s he
        cases hre : readExec h cfg q s with
        | mk res s1 =>
          rw [hre] at hf
          simp only at hf
          cases res with
          | some e => simpa using hf
          | none =>
            simp only
            have h2 := ih next s1 hf.1
            exact ⟨h2.1, by rw [h2.2.1, hf.2.1], by rw [h2.2.2, hf.2.2]⟩
      | print =>
        simp only
        have hf := printExec_fields h q s
        cases hre : printExec h q s with
        | mk res s1 =>
          rw [hre] at hf
          simp only at hf
          cases res with
          | some e => exact ⟨by rw [hf.1, he], hf.2.1, hf.2.2⟩
          | none =>
            simp only
            have h2 := ih next s1 (by rw [hf.1, he])
            exact ⟨h2.1, by rw [h2.2.1, hf.2.1], by rw [h2.2.2, hf.2.2]⟩
      | debug =>
        simp only
        split
        · have hf := debugExec_fields h q s
          cases hre : debugExec h q s with
          | mk res s1 =>
            rw [hre] at hf
            simp only at hf
            cases res with
            | some e => exact ⟨by rw [hf.1, he], hf.2.1, hf.2.2⟩
            | none =>
              simp only
              have h2 := ih next s1 (by rw [hf.1, he])
              exact ⟨h2.1, by rw [h2.2.1, hf.2.1], by rw [h2.2.2, hf.2.2]⟩
        · exact ih next s he
      | nop => exact ih next s he

/-- Handlers that always succeed, populate no error, and never feed; the
input handler matches the `input_no_feed` test handler of the source
tree. -/
def noFeedHandlers : Handlers :=
  { inputH := fun _ => ⟨true, none, []⟩
    outputH := fun _ _ => (true, none)
    debugH := fun _ => (true, none) }

/-- The program produced by loading "," : a quantity-1 READ followed by a
trailing NONE instruction, with no embedded input. -/
def progComma : CattleProgram :=
  { instructions := .node .read 1 (some nopInstruction) none, input := none }

/-- C10: once the end-of-input flag is set, a later `cattle_interpreter_run`
on the same interpreter resets the stack and the had-input flag (and
installs the program input with the cursor at its start) but does not reset
the flag: the run never invokes the input handler again, and every READ of
positive quantity immediately takes the end-of-input path, applying the
configured end-of-input action. -/
theorem spec_c10_end_flag_persists (h : Handlers) (fuel : Nat)
    (s : CattleInterpreter) (he : s.endOfInputReached = true) :
    (cattle_interpreter_run h fuel s).2.endOfInputReached = true
  ∧ (cattle_interpreter_run h fuel s).2.inputCalls = 0
  ∧ (cattle_interpreter_run h fuel s).2.hadInput = false
  ∧ (cattle_interpreter_run h fuel s).2.stack = []
  ∧ (∀ (cfg : CattleConfiguration) (q : Nat) (s2 : CattleInterpreter), 1 ≤ q →
      s2.endOfInputReached = true →
      (s2.input = none ∨ ∃ bs, s2.input = some bs ∧ utf8Valid bs = true) →
      readExec h cfg q s2 = (none, readStore cfg (-1) s2)) := by
  have hinv := runF_endReached_invariant h s.configuration fuel
    (some s.program.instructions)
    { s with stack := ([] : List Instruction),
             hadInput := (s.program.input).isSome,
             input := s.program.input, inputCursor := 0,
             inputCalls := 0, outputCalls := 0, debugCalls := 0 } he
  refine ⟨?_, ?_, rfl, rfl, ?_⟩
  · show (if _ then _ else _ : CattleInterpreter).endOfInputReached = true
    split
    · exact hinv.1
    · exact hinv.1
  · show (if _ then _ else _ : CattleInterpreter).inputCalls = 0
    split
    · exact hinv.2.1
    · exact hinv.2.1
  · intro cfg q s2 hq he2 hv2
    exact readExec_endReached h cfg q s2 hq he2 hv2

/-- Interpreter state used by concrete scenarios: a fresh interpreter for
"," whose end-of-input flag is already set (as after a previous run that
exhausted the input). -/
def exhaustedInterp : CattleInterpreter :=
  { cattle_interpreter_new cattle_configuration_new progComma with
    endOfInputReached := true }

/-- C10 witness: the persistence theorem applied to a concrete exhausted
interpreter: after another run the flag is still set and the input handler
was never called. -/
theorem spec_c10_end_flag_persists_witness :
    (cattle_interpreter_run noFeedHandlers 10 exhaustedInterp).2.endOfInputReached = true
  ∧ (cattle_interpreter_run noFeedHandlers 10 exhaustedInterp).2.inputCalls = 0 := by
  have h := spec_c10_end_flag_persists noFeedHandlers 10 exhaustedInterp rfl
  exact ⟨h.1, h.2.1⟩

/-- C5: (amended) `cattle_interpreter_feed` with a non-NULL input replaces
the input buffer and resets the cursor to its start, but does NOT clear the
end-of-input flag; feeding NULL sets the flag.  Consequently, if the end of
input had been reached, a read after feeding new input still takes the
end-of-input path instead of consuming the new input. -/
theorem spec_c5_feed_semantics (h : Handlers) (s : CattleInterpreter)
    (l : List Nat) :
    cattle_interpreter_feed s (some l) =
      { s with input := some l, inputCursor := 0 }
  ∧ cattle_interpreter_feed s none =
      { s with input := none, inputCursor := 0, endOfInputReached := true }
  ∧ (s.endOfInputReached = true → utf8Valid l = true →
      readIter h (cattle_interpreter_feed s (some l)) =
        (.ok (-1), cattle_interpreter_feed s (some l))) := by
  refine ⟨rfl, rfl, ?_⟩
  intro he hval
  exact readIter_endReached h _ he (Or.inr ⟨l, rfl, hval⟩)

/-- C5 witness: the feed semantics evaluated on the exhausted interpreter
and the input "A". -/
theorem spec_c5_feed_semantics_witness :
    cattle_interpreter_feed exhaustedInterp (some [65]) =
      { exhaustedInterp with input := some [65], inputCursor := 0 }
  ∧ readIter noFeedHandlers (cattle_interpreter_feed exhaustedInterp (some [65])) =
      (.ok (-1), cattle_interpreter_feed exhaustedInterp (some [65])) := by
  have h := spec_c5_feed_semantics noFeedHandlers exhaustedInterp [65]
  exact ⟨h.1, h.2.2 rfl (by decide)⟩

/-- C5 counterexample: feeding "A" to an interpreter whose end-of-input
flag is set does not clear the flag, and the next read retrieves the EOF
sentinel rather than the newly fed byte 65. -/
theorem spec_c5_counterexample :
    (cattle_interpreter_feed exhaustedInterp (some [65])).endOfInputReached = true
  ∧ (readIter noFeedHandlers
      (cattle_interpreter_feed exhaustedInterp (some [65]))).1 = .ok (-1)
  ∧ (Except.ok (-1) : Except CattleError Int) ≠ .ok 65 := by
  refine ⟨rfl, rfl, fun hcontra => absurd (Except.ok.inj hcontra) (by decide)⟩

/-- C7: a READ with quantity `q > 1` runs the read sub-algorithm `q`
times.  With embedded input available, each iteration consumes one
character (the cursor advances by `q`) and exactly one value — the one
retrieved by the final iteration — is written to the tape; the
intermediate characters are discarded and the input handler is never
called (all other interpreter fields are unchanged).  Without input, the
handler is triggered on the first iteration only, and the final EOF
sentinel is subject to the end-of-input action (which under DoNothing
leaves the cell untouched). -/
theorem spec_c7_multi_quantity_read (h : Handlers) (cfg : CattleConfiguration)
    (q : Nat) (s : CattleInterpreter) (bs : List Nat) (ch : Nat)
    (hq : 1 ≤ q) (hhi : s.hadInput = true) (he : s.endOfInputReached = false)
    (hin : s.input = some bs) (hval : utf8Valid bs = true)
    (hall : ∀ i : Nat, i < q →
      ∃ c, (utf8Chars bs).get? (s.inputCursor + i) = some c ∧ c ≤ 127)
    (hlast : (utf8Chars bs).get? (s.inputCursor + (q - 1)) = some ch) :
    readExec h cfg q s =
      (none,
        { s with inputCursor := s.inputCursor + q,
                 tape := cattle_tape_set_current_value s.tape (ch : Int) })
  ∧ (∀ s2 : CattleInterpreter, s2.hadInput = false →
      s2.endOfInputReached = false → s2.input = none →
      h.inputH s2.inputCalls = ⟨true, none, []⟩ →
      readExec h cfg q s2 =
        (none,
          readStore cfg (-1)
            { s2 with inputCalls := s2.inputCalls + 1,
                      endOfInputReached := true })) := by
  constructor
  · unfold readExec
    rw [if_neg (by omega : ¬q = 0),
        readLoop_consume h q s bs ch hq hhi he hin hval hall hlast]
    simp only
    unfold readStore
    rw [if_neg (by omega : ¬((ch : Int) = -1))]
  · intro s2 hhi2 he2 hin2 hreply2
    exact readExec_noInput h cfg q s2 hq hhi2 he2 hin2 hreply2

/-- Interpreter with embedded input "AB" already installed, as during a run
of a program loaded from ",,!AB". -/
def embeddedInputInterp : CattleInterpreter :=
  { cattle_interpreter_new cattle_configuration_new progComma with
    hadInput := true, input := some [65, 66] }

/-- C7 witness: a quantity-2 READ on input "AB" consumes both characters
and stores only the second one (66). -/
theorem spec_c7_multi_quantity_read_witness :
    readExec noFeedHandlers cattle_configuration_new 2 embeddedInputInterp =
      (none,
        { embeddedInputInterp with
            inputCursor := 2,
            tape := cattle_tape_set_current_value embeddedInputInterp.tape 66 }) := by
  have h := spec_c7_multi_quantity_read noFeedHandlers cattle_configuration_new
    2 embeddedInputInterp [65, 66] 66 (by omega) rfl rfl rfl (by decide)
    (by
      intro i hi
      interval_cases i
      · exact ⟨65, by decide, by decide⟩
      · exact ⟨66, by decide, by decide⟩)
    (by decide)
  exact h.1

/-- Configuration with a given end-of-input action and debugging off. -/
def configWith (a : CattleEndOfInputAction) : CattleConfiguration :=
  { endOfInputAction := a, debugIsEnabled := false }

/-- C9: running "," on a fresh tape with no embedded input and an input
handler that does not feed leaves the origin cell at 0 under StoreZero, at
-1 under StoreEof, and unchanged (0) under DoNothing; moreover the
end-of-input action is applied only to the EOF sentinel: any non-sentinel
character is written to the tape unconditionally, whatever the action. -/
theorem spec_c9_eof_policies :
    cattle_program_load_from_string [44] = .ok progComma
  ∧ ((cattle_interpreter_run noFeedHandlers 10
        (cattle_interpreter_new (configWith .storeZero) progComma)).1 = .success
      ∧ cattle_tape_get_current_value
          ((cattle_interpreter_run noFeedHandlers 10
            (cattle_interpreter_new (configWith .storeZero) progComma)).2.tape) = 0)
  ∧ ((cattle_interpreter_run noFeedHandlers 10
        (cattle_interpreter_new (configWith .storeEof) progComma)).1 = .success
      ∧ cattle_tape_get_current_value
          ((cattle_interpreter_run noFeedHandlers 10
            (cattle_interpreter_new (configWith .storeEof) progComma)).2.tape) = -1)
  ∧ ((cattle_interpreter_run noFeedHandlers 10
        (cattle_interpreter_new (configWith .doNothing) progComma)).1 = .success
      ∧ (cattle_interpreter_run noFeedHandlers 10
          (cattle_interpreter_new (configWith .doNothing) progComma)).2.tape =
          cattle_tape_new)
  ∧ (∀ (cfg : CattleConfiguration) (temp : Int) (s : CattleInterpreter),
      temp ≠ -1 →
      readStore cfg temp s =
        { s with tape := cattle_tape_set_current_value s.tape temp }) := by
  refine ⟨rfl, ⟨rfl, by decide⟩, ⟨rfl, by decide⟩, ⟨rfl, rfl⟩, ?_⟩
  intro cfg temp s hne
  unfold readStore
  rw [if_neg hne]

/-- C9 witness: the non-sentinel conjunct applied at the byte 65: it is
stored even under the DoNothing action. -/
theorem spec_c9_eof_policies_witness :
    readStore (configWith .doNothing) 65 exhaustedInterp =
      { exhaustedInterp with
          tape := cattle_tape_set_current_value exhaustedInterp.tape 65 } :=
  spec_c9_eof_policies.2.2.2.2 (configWith .doNothing) 65 exhaustedInterp (by decide)

/-- The program produced by loading "." : a quantity-1 PRINT followed by a
trailing NONE instruction. -/
def progDot : CattleProgram :=
  { instructions := .node .print 1 (some nopInstruction) none, input := none }

/-- The program produced by loading "#" : a quantity-1 DEBUG followed by a
trailing NONE instruction. -/
def progHash : CattleProgram :=
  { instructions := .node .debug 1 (some nopInstruction) none, input := none }

/-- Handlers whose output handler returns the given outcome. -/
def outputOracle (success : Bool) (err : Option CattleError) : Handlers :=
  { inputH := fun _ => ⟨true, none, []⟩
    outputH := fun _ _ => (success, err)
    debugH := fun _ => (true, none) }

/-- Handlers whose input handler returns the given outcome without
feeding. -/
def inputOracle (success : Bool) (err : Option CattleError) : Handlers :=
  { inputH := fun _ => ⟨success, err, []⟩
    outputH := fun _ _ => (true, none)
    debugH := fun _ => (true, none) }

/-- Handlers whose debug handler returns the given outcome. -/
def debugOracle (success : Bool) (err : Option CattleError) : Handlers :=
  { inputH := fun _ => ⟨true, none, []⟩
    outputH := fun _ _ => (true, none)
    debugH := fun _ => (success, err) }

/-- C6: the handler failure policy, shared by the three call sites.  A
handler that fails without populating an error makes `run` abort with the
synthesized generic I/O error; a handler that populates an error aborts
`run` with exactly that error whether or not it reported success;
execution continues only on success with no error populated.  The three
run-level conjuncts show `run` surfacing this outcome for an input, an
output, and a debug handler invocation. -/
theorem spec_c6_handler_failure_policy (success : Bool) (err : Option CattleError) :
    (handlerOutcome success err = none ↔ success = true ∧ err = none)
  ∧ (success = false → err = none → handlerOutcome success err = some .ioErr)
  ∧ (∀ e, err = some e → handlerOutcome success err = some e)
  ∧ (cattle_interpreter_run (inputOracle success err) 10
      (cattle_interpreter_new cattle_configuration_new progComma)).1 =
      (match handlerOutcome success err with
       | none => .success
       | some e => .failure e)
  ∧ (cattle_interpreter_run (outputOracle success err) 10
      (cattle_interpreter_new cattle_configuration_new progDot)).1 =
      (match handlerOutcome success err with
       | none => .success
       | some e => .failure e)
  ∧ (cattle_interpreter_run (debugOracle success err) 10
      (cattle_interpreter_new
        { endOfInputAction := .storeZero, debugIsEnabled := true } progHash)).1 =
      (match handlerOutcome success err with
       | none => .success
       | some e => .failure e) := by
  refine ⟨?_, ?_, ?_, ?_, ?_, ?_⟩
  · cases success with
    | false => cases err with
      | none => simp [handlerOutcome]
      | some e => simp [handlerOutcome]
    | true => cases err with
      | none => simp [handlerOutcome]
      | some e => simp [handlerOutcome]
  · intro hs hn
    subst hs
    subst hn
    rfl
  · intro e hn
    subst hn
    cases success <;> rfl
  · cases success <;> cases err <;> rfl
  · cases success <;> cases err <;> rfl
  · cases success <;> cases err <;> rfl

/-- C6 witness: a handler that fails without populating an error makes the
run abort with the generic I/O error. -/
theorem spec_c6_handler_failure_policy_witness :
    handlerOutcome false none = some .ioErr
  ∧ (cattle_interpreter_run (outputOracle false none) 10
      (cattle_interpreter_new cattle_configuration_new progDot)).1 =
      .failure .ioErr := by
  have h := spec_c6_handler_failure_policy false none
  exact ⟨h.2.1 rfl rfl, h.2.2.2.2.1⟩

/-- The program produced by loading "+++++": a single coalesced INCREASE of
quantity 5 followed by the trailing NONE instruction the parser always
appends at end of input. -/
def progPlus5 : CattleProgram :=
  { instructions := .node .increase 5 (some nopInstruction) none, input := none }

/-- C4: (amended) loading "+++++" coalesces the five plus signs into one
INCREASE instruction with quantity 5, whose `next` is the quantity-1 NONE
terminator the parser appends at end of input (so the chain has that one
extra node); running the program leaves the origin cell at 5. -/
theorem spec_c4_coalescing :
    cattle_program_load_from_string [43, 43, 43, 43, 43] = .ok progPlus5
  ∧ instrValue progPlus5.instructions = .increase
  ∧ instrQuantity progPlus5.instructions = 5
  ∧ instrNext progPlus5.instructions = some nopInstruction
  ∧ instrLoop progPlus5.instructions = none
  ∧ (cattle_interpreter_run noFeedHandlers 10
      (cattle_interpreter_new cattle_configuration_new progPlus5)).1 = .success
  ∧ cattle_tape_get_current_value
      ((cattle_interpreter_run noFeedHandlers 10
        (cattle_interpreter_new cattle_configuration_new progPlus5)).2.tape) = 5 := by
  exact ⟨rfl, rfl, rfl, rfl, rfl, rfl, by decide⟩

/-- C4 counterexample: the root of the tree loaded from "+++++" has a
non-empty `next` link (the trailing NONE instruction), so the tree is not
a single node as the claim states. -/
theorem spec_c4_counterexample :
    (cattle_program_load_from_string [43, 43, 43, 43, 43]).map
      (fun p => (instrNext p.instructions).isSome) = .ok true := by
  rfl

theorem scanBracketsF_ne_badUtf8 :
    ∀ (fuel : Nat) (bs : List Nat) (k : Int),
      scanBracketsF fuel bs k ≠ .error .badUtf8 := by
  intro fuel
  induction fuel with
  | zero => intro bs k; simp [scanBracketsF]
  | succ fuel ih =>
    intro bs k
    unfold scanBracketsF
    split
    · simp
    · split
      · split
        · simp
        · simp
      · split
        · split
          · simp
          · simp
        · exact ih _ _

/-- A character that is not an opcode and not the bang is skipped by the
parser: parsing resumes immediately after it with the same result. -/
theorem loadReal_comment {bs rest : List Nat} {c : Nat}
    (h : utf8NextChar bs = some (c, rest))
    (hbang : c ≠ 0x21) (hbb : c ≠ 0x5B) (hbe : c ≠ 0x5D)
    (hop : simpleOpcode c = none) :
    loadReal bs = loadReal rest := by
  have hlen := utf8NextChar_length h
  conv_lhs => unfold loadReal loadRealF
  rw [h]
  simp only [hbang, hbb, hbe, if_false, hop]
  unfold loadReal
  exact loadRealF_fuel bs.length (rest.length + 1) rest (by omega) (by omega)

/-- C2: (amended) the loader is not byte-oriented: it first validates the
whole input as UTF-8 and fails with exactly the BadUtf8 error on any
invalid input; on valid input it reads the source character by character
(code points, not bytes), and every character other than the nine opcodes
and the bang is skipped as a comment. -/
theorem spec_c2_utf8_loader (bs : List Nat) :
    (cattle_program_load_from_string bs = .error .badUtf8 ↔
      utf8Valid bs = false)
  ∧ (∀ (c : Nat) (rest : List Nat), utf8NextChar bs = some (c, rest) →
      c ≠ 0x21 → c ≠ 0x5B → c ≠ 0x5D → simpleOpcode c = none →
      loadReal bs = loadReal rest) := by
  constructor
  · unfold cattle_program_load_from_string
    by_cases hv : utf8Valid bs = false
    · simp [hv]
    · rw [if_neg hv]
      cases hscan : scanBrackets bs 0 with
      | error e =>
        simp only
        constructor
        · intro hcontra
          have he : e = .badUtf8 := by
            cases hcontra
            rfl
          rw [he] at hscan
          exact absurd hscan (scanBracketsF_ne_badUtf8 _ bs 0)
        · intro hfalse
          exact absurd hfalse hv
      | ok u =>
        simp only
        constructor
        · intro hcontra
          exact Except.noConfusion hcontra
        · intro hfalse
          exact absurd hfalse hv
  · intro c rest h h1 h2 h3 h4
    exact loadReal_comment h h1 h2 h3 h4

/-- C2 witness: the byte 0xFF is rejected as invalid UTF-8, and the comment
byte "a" before a "+" is skipped by the parser. -/
theorem spec_c2_utf8_loader_witness :
    cattle_program_load_from_string [255] = .error .badUtf8
  ∧ loadReal [97, 43] = loadReal [43] := by
  refine ⟨(spec_c2_utf8_loader [255]).1.mpr (by decide), ?_⟩
  exact (spec_c2_utf8_loader [97, 43]).2 97 [43] (by decide) (by decide)
    (by decide) (by decide) (by decide)

/-- C2 counterexample: the loader rejects the byte sequence [0xFF] on
encoding grounds with the BadUtf8 error, contradicting the claim that
every byte sequence is accepted. -/
theorem spec_c2_counterexample :
    cattle_program_load_from_string [255] = .error .badUtf8 := by
  rfl

/-- Bracket weight of one character, following the spec's words: `[` counts
+1, `]` counts -1, everything else 0. -/
def bracketDelta (c : Nat) : Int :=
  if c = 0x5B then 1 else if c = 0x5D then -1 else 0

/-- The characters examined by the balance pre-pass: the character sequence
of the source up to (excluding) the first bang. -/
def codeRegion (bs : List Nat) : List Nat :=
  (utf8Chars bs).takeWhile (fun c => c ≠ 0x21)

/-- Starting from counter value `k`, the running bracket counter dips below
zero at some point of the scan of `cs`. -/
def everNegativeFrom (k : Int) (cs : List Nat) : Prop :=
  ∃ n : Nat, k + ((cs.take n).map bracketDelta).sum < 0

/-- The pre-pass counter, started at zero, ever goes negative. -/
def everNegative (bs : List Nat) : Prop :=
  everNegativeFrom 0 (codeRegion bs)

/-- Final value of the pre-pass counter at the end of the scan. -/
def bracketSum (bs : List Nat) : Int :=
  ((codeRegion bs).map bracketDelta).sum

theorem everNegativeFrom_nil (k : Int) : everNegativeFrom k [] ↔ k < 0 := by
  unfold everNegativeFrom
  simp

theorem everNegativeFrom_cons {k : Int} (hk : 0 ≤ k) (c : Nat) (L : List Nat) :
    everNegativeFrom k (c :: L) ↔ everNegativeFrom (k + bracketDelta c) L := by
  unfold everNegativeFrom
  constructor
  · rintro ⟨n, hn⟩
    match n with
    | 0 =>
      simp only [List.take_zero, List.map_nil, List.sum_nil, Int.add_zero] at hn
      omega
    | m + 1 =>
      refine ⟨m, ?_⟩
      simp only [List.take_succ_cons, List.map_cons, List.sum_cons] at hn
      omega
  · rintro ⟨m, hm⟩
    refine ⟨m + 1, ?_⟩
    simp only [List.take_succ_cons, List.map_cons, List.sum_cons]
    omega

/-- Complete characterization of the balance pre-pass: with the counter at
`k`, the scan fails with UnmatchedBracket exactly when the counter would
ever dip below zero, fails with UnbalancedBrackets exactly when it never
dips below zero but ends non-zero, and succeeds exactly when it never dips
below zero and ends at zero. -/
theorem scanBracketsF_spec :
    ∀ (fuel : Nat) (bs : List Nat) (k : Int), bs.length < fuel →
      (scanBracketsF fuel bs k = .error .unmatchedBracket ↔
        everNegativeFrom k ((utf8Chars bs).takeWhile (fun c => c ≠ 0x21)))
    ∧ (scanBracketsF fuel bs k = .error .unbalancedBrackets ↔
        (¬ everNegativeFrom k ((utf8Chars bs).takeWhile (fun c => c ≠ 0x21))
          ∧ k + ((((utf8Chars bs).takeWhile (fun c => c ≠ 0x21)).map bracketDelta).sum) ≠ 0))
    ∧ (scanBracketsF fuel bs k = .ok () ↔
        (¬ everNegativeFrom k ((utf8Chars bs).takeWhile (fun c => c ≠ 0x21))
          ∧ k + ((((utf8Chars bs).takeWhile (fun c => c ≠ 0x21)).map bracketDelta).sum) = 0)) := by
  intro fuel
  induction fuel with
  | zero => intro bs k hlt; omega
  | succ fuel ih =>
    intro bs k hlt
    unfold scanBracketsF
    by_cases hneg : k < 0
    · rw [if_pos hneg]
      have hev : everNegativeFrom k ((utf8Chars bs).takeWhile (fun c => c ≠ 0x21)) :=
        ⟨0, by simpa using hneg⟩
      refine ⟨⟨fun _ => hev, fun _ => rfl⟩, ⟨?_, ?_⟩, ⟨?_, ?_⟩⟩
      · intro hcontra
        simp at hcontra
      · rintro ⟨hnev, _⟩
        exact absurd hev hnev
      · intro hcontra
        simp at hcontra
      · rintro ⟨hnev, _⟩
        exact absurd hev hnev
    · rw [if_neg hneg]
      have hk : 0 ≤ k := by omega
      cases hnx : utf8NextChar bs with
      | none =>
        have hchars : utf8Chars bs = [] := utf8Chars_nil hnx
        rw [hchars]
        simp only [List.takeWhile_nil, List.map_nil, List.sum_nil, Int.add_zero,
          everNegativeFrom_nil]
        by_cases hk0 : k = 0
        · subst hk0
          norm_num
          exact ⟨by simp, by simp⟩
        · rw [if_pos hk0]
          refine ⟨⟨?_, ?_⟩, ⟨?_, ?_⟩, ⟨?_, ?_⟩⟩
          · intro hcontra
            simp at hcontra
          · intro h2
            omega
          · intro _
            exact ⟨by omega, by omega⟩
          · intro _
            rfl
          · intro hcontra
            simp at hcontra
          · intro h2
            omega
      | some p =>
        obtain ⟨c, rest⟩ := p
        have hchars := utf8Chars_cons hnx
        have hrlen := utf8NextChar_length hnx
        simp only
        rw [hchars]
        by_cases hbang : c = 0x21
        · subst hbang
          rw [if_pos rfl]
          rw [show (((0x21 : Nat) :: utf8Chars rest).takeWhile (fun c => c ≠ 0x21)) = [] by simp]
          simp only [List.map_nil, List.sum_nil, Int.add_zero, everNegativeFrom_nil]
          by_cases hk0 : k = 0
          · subst hk0
            norm_num
            exact ⟨by simp, by simp⟩
          · rw [if_pos hk0]
            refine ⟨⟨?_, ?_⟩, ⟨?_, ?_⟩, ⟨?_, ?_⟩⟩
            · intro hcontra
              simp at hcontra
            · intro h2
              omega
            · intro _
              exact ⟨by omega, by omega⟩
            · intro _
              rfl
            · intro hcontra
              simp at hcontra
            · intro h2
              omega
        · rw [if_neg hbang]
          have hdelta : k + (if c = 0x5B then (1 : Int) else 0) -
              (if c = 0x5D then (1 : Int) else 0) = k + bracketDelta c := by
            unfold bracketDelta
            split_ifs <;> omega
          rw [hdelta]
          rw [show (((c : Nat) :: utf8Chars rest).takeWhile (fun x => x ≠ 0x21)) =
            c :: (utf8Chars rest).takeWhile (fun x => x ≠ 0x21) by
              simp [List.takeWhile_cons, hbang]]
          have hih := ih rest (k + bracketDelta c) (by omega)
          simp only [List.map_cons, List.sum_cons, everNegativeFrom_cons hk]
          refine ⟨?_, ?_, ?_⟩
          · rw [hih.1]
          · rw [hih.2.1]
            constructor
            · rintro ⟨hnev, hsum⟩
              exact ⟨hnev, by omega⟩
            · rintro ⟨hnev, hsum⟩
              exact ⟨hnev, by omega⟩
          · rw [hih.2.2]
            constructor
            · rintro ⟨hnev, hsum⟩
              exact ⟨hnev, by omega⟩
            · rintro ⟨hnev, hsum⟩
              exact ⟨hnev, by omega⟩

/-- C3: (amended) for every source text that passes UTF-8 validation,
loading fails with the UnmatchedBracket error if and only if the pre-pass
counter (incremented on `[`, decremented on `]`, scan stopped at the first
`!`) ever goes negative; it fails with the UnbalancedBrackets error if and
only if the counter never goes negative but is non-zero at the scan's end;
it succeeds if and only if the counter never goes negative and ends at
zero (so a balanced source never produces a bracket error); and a valid
source never produces the BadUtf8 error. -/
theorem spec_c3_bracket_errors (bs : List Nat) (hval : utf8Valid bs = true) :
    (cattle_program_load_from_string bs = .error .unmatchedBracket ↔
      everNegative bs)
  ∧ (cattle_program_load_from_string bs = .error .unbalancedBrackets ↔
      (¬ everNegative bs ∧ bracketSum bs ≠ 0))
  ∧ ((∃ p, cattle_program_load_from_string bs = .ok p) ↔
      (¬ everNegative bs ∧ bracketSum bs = 0))
  ∧ cattle_program_load_from_string bs ≠ .error .badUtf8 := by
  have hspec := scanBracketsF_spec (bs.length + 1) bs 0 (by omega)
  have heq : scanBrackets bs 0 = scanBracketsF (bs.length + 1) bs 0 := rfl
  rw [← heq] at hspec
  simp only [Int.zero_add] at hspec
  unfold everNegative bracketSum codeRegion
  unfold cattle_program_load_from_string
  rw [if_neg (by rw [hval]; simp : ¬utf8Valid bs = false)]
  cases hscan : scanBrackets bs 0 with
  | error e =>
    rw [hscan] at hspec
    simp only
    cases e with
    | badUtf8 =>
      exact absurd (heq ▸ hscan) (scanBracketsF_ne_badUtf8 (bs.length + 1) bs 0)
    | unmatchedBracket =>
      have hev := hspec.1.mp rfl
      refine ⟨⟨fun _ => hev, fun _ => rfl⟩, ⟨?_, ?_⟩, ⟨?_, ?_⟩, by simp⟩
      · intro hcontra
        simp at hcontra
      · rintro ⟨hnev, _⟩
        exact absurd hev hnev
      · rintro ⟨p, hp⟩
        simp at hp
      · rintro ⟨hnev, _⟩
        exact absurd hev hnev
    | unbalancedBrackets =>
      have hub := hspec.2.1.mp rfl
      refine ⟨⟨?_, ?_⟩, ⟨fun _ => hub, fun _ => rfl⟩, ⟨?_, ?_⟩, by simp⟩
      · intro hcontra
        simp at hcontra
      · intro hev
        exact absurd hev hub.1
      · rintro ⟨p, hp⟩
        simp at hp
      · rintro ⟨hnev, hz⟩
        exact absurd hz (by simpa using hub.2)
  | ok u =>
    rw [hscan] at hspec
    cases u
    have hok := hspec.2.2.mp rfl
    simp only
    refine ⟨⟨?_, ?_⟩, ⟨?_, ?_⟩, ⟨fun _ => hok, fun _ => ⟨_, rfl⟩⟩, by simp⟩
    · intro hcontra
      simp at hcontra
    · intro hev
      exact absurd hev hok.1
    · intro hcontra
      simp at hcontra
    · rintro ⟨hnev, hnz⟩
      exact absurd hok.2 hnz

/-- C3 witness: the characterization applied to the balanced source "[]"
(loads successfully) via its third conjunct. -/
theorem spec_c3_bracket_errors_witness :
    ∃ p, cattle_program_load_from_string [91, 93] = .ok p := by
  refine (spec_c3_bracket_errors [91, 93] (by decide)).2.2.1.mpr ⟨?_, by decide⟩
  rintro ⟨n, hn⟩
  have hcode : codeRegion [91, 93] = [91, 93] := by decide
  rw [hcode] at hn
  match n with
  | 0 => simp [bracketDelta] at hn
  | 1 => simp [bracketDelta] at hn
  | m + 2 =>
    rw [List.take_of_length_le (by simp : ([91, 93] : List Nat).length ≤ m + 2)] at hn
    simp [bracketDelta] at hn

/-- C3 counterexample: for the source "]" the counter goes negative, but
the loader fails with UnmatchedBracket, not UnbalancedBrackets as the
claim states. -/
theorem spec_c3_counterexample :
    cattle_program_load_from_string [93] = .error .unmatchedBracket
  ∧ CattleProgramError.unmatchedBracket ≠ .unbalancedBrackets := by
  exact ⟨rfl, by decide⟩
